import Mathlib

/-!
Verification of the CUE scanner subsystem (cue/scanner) against its
natural-language specification.

The scanner implementation itself is not present in this source tree (only
its test file `cue/scanner/scanner_test.go` is), so the definitions below are
a shallow embedding modelled from the specification, constrained everywhere
by the concrete expectations recorded in `scanner_test.go` (token/literal
tables, error offsets and messages, line-directive segments, the comma
fixtures).  Offsets are byte offsets (UTF-8), as in the Go original; source
text is a `List Char` and multi-byte runes contribute `Char.utf8Size` bytes.
-/

namespace CueScan

/-- Token kinds of the scanner, from the tokens exercised in
`scanner_test.go` (testTokens, lines, errorTests). -/
inductive Token where
  | ILLEGAL | EOF | COMMENT
  | IDENT | INT | FLOAT | STRING | INTERPOLATION | BOTTOM
  | ADD | SUB | MUL | QUO | REM
  | UNIFY | DISJUNCTION | LAND | LOR
  | EQL | LSS | GTR | BIND | NOT
  | NEQ | LEQ | GEQ | ELLIPSIS
  | LPAREN | LBRACK | LBRACE | COMMA | PERIOD
  | RPAREN | RBRACK | RBRACE | COLON
  | TRUE | FALSE | NULL | FOR | IF | IN
  deriving DecidableEq, Repr

/-- The byte-order-mark code point U+FEFF. -/
def bomChar : Char := Char.ofNat 0xFEFF

/-- The backquote character that delimits raw string literals. -/
def bq : Char := Char.ofNat 96

/-- The underscore digit separator. -/
def us : Char := '_'

/-- An apostrophe, used to assemble diagnostic messages. -/
def sq : String := String.singleton (Char.ofNat 39)

/-- Total number of UTF-8 bytes of a character sequence. -/
def byteLen (cs : List Char) : Nat :=
  cs.foldr (fun c n => c.utf8Size + n) 0

/-- Horizontal whitespace: space, tab, carriage return. -/
def isHWs (c : Char) : Bool :=
  c == ' ' || c == '\t' || c == '\r'

/-- Letters for identifier purposes.  Modelled from the spec: ASCII letters,
underscore, and (approximating the unicode classes of the Go original) any
code point at or above U+0080 other than the byte order mark. -/
def isLetter (c : Char) : Bool :=
  c.isAlpha || c == '_' || (decide (128 ≤ c.toNat) && c != bomChar)

/-- Identifier continuation characters: letters or ASCII digits. -/
def isIdentCont (c : Char) : Bool :=
  isLetter c || c.isDigit

/-- Value of a digit character for radix scanning; 16 for non-digits so that
the comparison `digitVal c < base` fails for every base in use. -/
def digitVal (c : Char) : Nat :=
  if '0' ≤ c ∧ c ≤ '9' then c.toNat - 48
  else if 'a' ≤ c ∧ c ≤ 'f' then c.toNat - 97 + 10
  else if 'A' ≤ c ∧ c ≤ 'F' then c.toNat - 65 + 10
  else 16

/-- Uppercase hexadecimal digits of a number (little helper for `%#U`). -/
def hexUpAux : Nat → Nat → List Char
  | 0, _ => []
  | _ + 1, 0 => []
  | fuel + 1, n =>
    hexUpAux fuel (n / 16) ++ ["0123456789ABCDEF".toList.getD (n % 16) '0']

/-- `U+XXXX` rendering of a code point, padded to at least four digits,
as produced by Go's `%#U` verb (without the quoted-character suffix). -/
def hexU (n : Nat) : String :=
  let ds := if n = 0 then ['0'] else hexUpAux (n + 1) n
  let pad := List.replicate (4 - ds.length) '0'
  "U+" ++ String.mk (pad ++ ds)

/-- Printable test for the quoted-character part of `%#U`.  Modelled from
the spec: ASCII graphic characters and code points above U+00A0. -/
def isPrintable (c : Char) : Bool :=
  (decide (32 < c.toNat) && decide (c.toNat < 127)) || decide (160 < c.toNat)

/-- Go `%#U` formatting of a character. -/
def fmtU (c : Char) : String :=
  hexU c.toNat ++ (if isPrintable c then " " ++ sq ++ String.singleton c ++ sq else "")

/- Diagnostic messages. -/

def bomMsg : String := "illegal byte order mark"
def strNotTermMsg : String := "string literal not terminated"
def rawNotTermMsg : String := "raw string literal not terminated"
def commentNotTermMsg : String := "comment not terminated"
def unknownEscMsg : String := "unknown escape sequence"
def escNotTermMsg : String := "escape sequence not terminated"
def invalidCPMsg : String := "escape sequence is invalid Unicode code point"
def nulMsg : String := "illegal character NUL"
def illIntMsg : String := "illegal integer number"
def illHexMsg : String := "illegal hexadecimal number"
def illBinMsg : String := "illegal binary number"
def illOctMsg : String := "illegal octal number"
def usMsg : String := "illegal " ++ sq ++ "_" ++ sq ++ " in number"
def bottomMsg : String :=
  "illegal token " ++ sq ++ "_|" ++ sq ++ "; expected " ++ sq ++ "_" ++ sq
def illegalCharMsg (c : Char) : String := "illegal character " ++ fmtU c
def illEscCharMsg (c : Char) : String :=
  "illegal character " ++ fmtU c ++ " in escape sequence"

/-- Scanner mode flags: whether COMMENT tokens are returned and whether
automatic comma insertion is suppressed. -/
structure Mode where
  scanComments : Bool
  dontInsertCommas : Bool
  deriving DecidableEq, Repr

/-- Scanner cursor state: the unread suffix of the source, the byte offset
of its first character, the offset of the current line start, the pending
comma-insertion flag, and the accumulated faults and line-directive
records. -/
structure St where
  rest : List Char
  offs : Nat
  lineOffset : Nat
  insertComma : Bool
  errs : List (Nat × String)
  infos : List (Nat × String × Nat)
  deriving Repr

/-- Fault raised when the character becoming current is a byte order mark
(only reachable at nonzero offsets; the offset-0 BOM is consumed before the
first character is ever loaded). -/
def bomErrAt (offs : Nat) : List Char → List (Nat × String)
  | c :: _ => if c = bomChar then [(offs, bomMsg)] else []
  | [] => []

/-- Consume the current character: advance the byte offset, track line
starts, and report a byte order mark the moment it is loaded. -/
def advance (s : St) : St :=
  match s.rest with
  | [] => s
  | c :: rs =>
    { rest := rs
      offs := s.offs + c.utf8Size
      lineOffset := if c = '\n' then s.offs + 1 else s.lineOffset
      insertComma := s.insertComma
      errs := s.errs ++ bomErrAt (s.offs + c.utf8Size) rs
      infos := s.infos }

/-- Consume `n` characters. -/
def advanceN (s : St) : Nat → St
  | 0 => s
  | n + 1 => advanceN (advance s) n

def St.addErrs (s : St) (es : List (Nat × String)) : St :=
  { s with errs := s.errs ++ es }

def St.addErr (s : St) (e : Nat × String) : St :=
  { s with errs := s.errs ++ [e] }

def St.addInfo (s : St) (i : Nat × String × Nat) : St :=
  { s with infos := s.infos ++ [i] }

def St.setComma (s : St) (b : Bool) : St :=
  { s with insertComma := b }

/-- Conditional comma-flag update: suppressed entirely in
`dontInsertCommas` mode. -/
def St.setCommaM (s : St) (m : Mode) (b : Bool) : St :=
  if m.dontInsertCommas then s else s.setComma b

/-- Number of leading whitespace characters to skip.  Newlines count as
whitespace only while the comma-insertion flag is off. -/
def takeWs (noNl : Bool) : List Char → Nat
  | [] => 0
  | c :: rs =>
    if isHWs c || (!noNl && c == '\n') then takeWs noNl rs + 1 else 0

/-- Length of an identifier starting at the head of the list. -/
def takeIdent : List Char → Nat
  | [] => 0
  | c :: rs => if isIdentCont c then takeIdent rs + 1 else 0

/-- Length of a digit run (digits of the given base and underscores). -/
def takeMantissa (base : Nat) : List Char → Nat
  | [] => 0
  | c :: rs => if digitVal c < base ∨ c = us then takeMantissa base rs + 1 else 0

/-- Underscore-separator faults inside a consumed digit run: a repeated
underscore is reported at its own offset, a trailing underscore at its
offset (one before the cursor after the run). -/
def usErrs (offs : Nat) (last : Option Char) : List Char → List (Nat × String)
  | [] => if last = some us then [(offs - 1, usMsg)] else []
  | c :: rs =>
    (if c = us ∧ last = some us then [(offs, usMsg)] else [])
      ++ usErrs (offs + c.utf8Size) (some c) rs

/-- Unit-multiplier suffix characters. -/
def isMult (c : Char) : Bool :=
  c == 'K' || c == 'M' || c == 'G' || c == 'T' || c == 'P' || c == 'E'

/-- Optional unit-multiplier suffix (K M G T P E, optionally followed by
`i`): consumed characters and the advanced state. -/
def multTail (s : St) : Option (List Char × St) :=
  match s.rest with
  | c :: rs =>
    if isMult c then
      match rs with
      | d :: _ =>
        if d = 'i' then some ([c, 'i'], advanceN s 2) else some ([c], advance s)
      | [] => some ([c], advance s)
    else none
  | [] => none

/-- Optional exponent part: `e` or `E`, an optional sign, and a digit run. -/
def expTail (s : St) : Option (List Char × St) :=
  match s.rest with
  | c :: rs =>
    if c = 'e' ∨ c = 'E' then
      let s1 := advance s
      match rs with
      | d :: _ =>
        if d = '+' ∨ d = '-' then
          let s2 := advance s1
          let n := takeMantissa 10 s2.rest
          let ds := s2.rest.take n
          some (c :: d :: ds, (advanceN s2 n).addErrs (usErrs s2.offs none ds))
        else
          let n := takeMantissa 10 s1.rest
          let ds := s1.rest.take n
          some (c :: ds, (advanceN s1 n).addErrs (usErrs s1.offs none ds))
      | [] => some ([c], s1)
    else none
  | [] => none

/-- After a mantissa: a unit multiplier makes the token INT, otherwise an
exponent makes it FLOAT, otherwise the token kind is unchanged. -/
def numTail (tok0 : Token) (s : St) : Token × List Char × St :=
  match multTail s with
  | some (cs, s1) => (Token.INT, cs, s1)
  | none =>
    match expTail s with
    | some (cs, s1) => (Token.FLOAT, cs, s1)
    | none => (tok0, [], s)

/-- Fraction part (if the cursor is at a decimal point) followed by the
multiplier/exponent tail. -/
def fracTail (tok0 : Token) (s : St) : Token × List Char × St :=
  match s.rest.head? with
  | some c =>
    if c = '.' then
      let s1 := advance s
      let n := takeMantissa 10 s1.rest
      let ds := s1.rest.take n
      let s2 := (advanceN s1 n).addErrs (usErrs s1.offs none ds)
      let (t, cs, s3) := numTail Token.FLOAT s2
      (t, '.' :: ds ++ cs, s3)
    else numTail tok0 s
  | none => numTail tok0 s

/-- Number starting with a nonzero decimal digit. -/
def scanNumDec (s : St) : Token × List Char × St :=
  let n := takeMantissa 10 s.rest
  let ds := s.rest.take n
  let s1 := (advanceN s n).addErrs (usErrs s.offs none ds)
  let (t, cs, s2) := fracTail Token.INT s1
  (t, ds ++ cs, s2)

/-- Number starting at a decimal point (the point is the current char). -/
def scanNumDot (s : St) : Token × List Char × St :=
  let s1 := advance s
  let n := takeMantissa 10 s1.rest
  let ds := s1.rest.take n
  let s2 := (advanceN s1 n).addErrs (usErrs s1.offs none ds)
  let (t, cs, s3) := numTail Token.FLOAT s2
  (t, '.' :: ds ++ cs, s3)

/-- Radix-prefixed integer after `0`: `c` is the prefix letter, the state is
positioned at it.  The digit run may not be empty and may not begin with an
underscore. -/
def scanNumRadix (startOffs : Nat) (base : Nat) (msg : String) (c : Char)
    (s1 : St) : Token × List Char × St :=
  let s2 := advance s1
  let n := takeMantissa base s2.rest
  let ds := s2.rest.take n
  let s3 := (advanceN s2 n).addErrs (usErrs s2.offs (if n = 0 then none else some us) ds)
  let s4 := if n = 0 then s3.addErr (startOffs, msg) else s3
  (Token.INT, '0' :: c :: ds, s4)

/-- Continuation of a leading-zero decimal after its digit run `ds` (the
`0` excluded): a decimal point or exponent makes it a legal float, a
nonempty plain digit run is the "illegal integer number" case. -/
def zeroTail (startOffs : Nat) (n : Nat) (ds : List Char) (s2 : St) :
    Token × List Char × St :=
  match s2.rest.head? with
  | some c2 =>
    if c2 = '.' then
      let r := fracTail Token.INT s2
      (r.1, '0' :: ds ++ r.2.1, r.2.2)
    else if c2 = 'e' ∨ c2 = 'E' then
      match expTail s2 with
      | some (cs, s3) => (Token.FLOAT, '0' :: ds ++ cs, s3)
      | none => (Token.INT, '0' :: ds, s2)
    else if n = 0 then (Token.INT, ['0'], s2)
    else (Token.INT, '0' :: ds, s2.addErr (startOffs, illIntMsg))
  | none =>
    if n = 0 then (Token.INT, ['0'], s2)
    else (Token.INT, '0' :: ds, s2.addErr (startOffs, illIntMsg))

/-- Number starting with the digit `0`: radix prefixes, or the
leading-zero decimal rule ("illegal integer number" unless the digit run
continues into a decimal point or an exponent). -/
def scanNumZero (s : St) : Token × List Char × St :=
  let startOffs := s.offs
  let s1 := advance s
  match s1.rest.head? with
  | some c =>
    if c = 'x' ∨ c = 'X' then scanNumRadix startOffs 16 illHexMsg c s1
    else if c = 'b' ∨ c = 'B' then scanNumRadix startOffs 2 illBinMsg c s1
    else if c = 'o' ∨ c = 'O' then scanNumRadix startOffs 8 illOctMsg c s1
    else
      let n := takeMantissa 10 s1.rest
      let ds := s1.rest.take n
      zeroTail startOffs n ds ((advanceN s1 n).addErrs (usErrs s1.offs none ds))
  | none => (Token.INT, ['0'], s1)

/-- Fixed-width escape digits: consume `n` digits of `base`, accumulating
the value `x`; a non-digit is reported at its own offset, end of input as an
unterminated escape; a completed value above `maxV` or in the surrogate
range is reported at `offs0` (the offset of the character that introduced
the escape).  Returns (consumed, faults, ok). -/
def escDigits (base maxV offs0 : Nat) : Nat → Nat → List Char → Nat →
    Nat × List (Nat × String) × Bool
  | 0, x, _, _ =>
    if maxV < x ∨ (0xD800 ≤ x ∧ x < 0xE000) then (0, [(offs0, invalidCPMsg)], false)
    else (0, [], true)
  | _ + 1, _, [], offs => (0, [(offs, escNotTermMsg)], false)
  | n + 1, x, c :: rs, offs =>
    if digitVal c < base then
      let (k, es, ok) := escDigits base maxV offs0 n (x * base + digitVal c) rs (offs + c.utf8Size)
      (k + 1, es, ok)
    else (0, [(offs, illEscCharMsg c)], false)

/-- Escape set for the processed string families. -/
def isNamedEsc (quote c : Char) : Bool :=
  c == 'a' || c == 'b' || c == 'f' || c == 'n' || c == 'r' || c == 't' ||
  c == 'v' || c == '\\' || c == '/' || c == quote

/-- Scan one escape sequence; the backslash is already consumed and `cs`
starts at the character after it, whose byte offset is `offs`.
Returns (consumed, faults, ok, opens-interpolation). -/
def scanEsc (quote : Char) (cs : List Char) (offs : Nat) :
    Nat × List (Nat × String) × Bool × Bool :=
  match cs with
  | [] => (0, [(offs, escNotTermMsg)], false, false)
  | c :: rs =>
    if c = '(' then (1, [], true, true)
    else if isNamedEsc quote c then (1, [], true, false)
    else if '0' ≤ c ∧ c ≤ '7' then
      let (k, es, ok) := escDigits 8 255 offs 3 0 cs offs
      (k, es, ok, false)
    else if c = 'x' then
      let (k, es, ok) := escDigits 16 255 offs 2 0 rs (offs + 1)
      (k + 1, es, ok, false)
    else if c = 'u' then
      let (k, es, ok) := escDigits 16 0x10FFFF offs 4 0 rs (offs + 1)
      (k + 1, es, ok, false)
    else if c = 'U' then
      let (k, es, ok) := escDigits 16 0x10FFFF offs 8 0 rs (offs + 1)
      (k + 1, es, ok, false)
    else (0, [(offs, unknownEscMsg)], false, false)

/-- How a string-body scan ended. -/
inductive StrEnd where
  | closed | unterminated | interp
  deriving DecidableEq, Repr

/-- Body of a single-line (non-triple) quoted string: `cs` starts after the
opening quote at byte offset `offs`; `start` is the offset of the opening
quote, used for the unterminated-literal fault.  Returns the number of
characters consumed (including a closing quote), the faults, and how the
scan ended.  A newline is not consumed. -/
def strBody (q : Char) (start : Nat) : Nat → List Char → Nat →
    Nat × List (Nat × String) × StrEnd
  | 0, _, _ => (0, [], .unterminated)
  | _ + 1, [], _ => (0, [(start, strNotTermMsg)], .unterminated)
  | fl + 1, c :: rs, offs =>
    if c = q then (1, [], .closed)
    else if c = '\n' then (0, [(start, strNotTermMsg)], .unterminated)
    else if c = '\\' then
      let (k, es, _, itp) := scanEsc q rs (offs + 1)
      if itp then (1 + k, es, .interp)
      else
        let (k2, es2, e) := strBody q start fl (rs.drop k) (offs + 1 + byteLen (rs.take k))
        (1 + k + k2, es ++ es2, e)
    else if c.toNat = 0 then
      let (k2, es2, e) := strBody q start fl rs (offs + 1)
      (1 + k2, (offs, nulMsg) :: es2, e)
    else
      let (k2, es2, e) := strBody q start fl rs (offs + c.utf8Size)
      (1 + k2, es2, e)

/-- Body of a triple-quoted multi-line string (quote character `q`): closes
on three consecutive quotes; newlines are part of the literal. -/
def str3Body (q : Char) (start : Nat) : Nat → List Char → Nat →
    Nat × List (Nat × String) × StrEnd
  | 0, _, _ => (0, [], .unterminated)
  | _ + 1, [], _ => (0, [(start, strNotTermMsg)], .unterminated)
  | fl + 1, c :: rs, offs =>
    if c = q ∧ rs.take 2 = [q, q] then (3, [], .closed)
    else if c = '\\' then
      let (k, es, _, itp) := scanEsc q rs (offs + 1)
      if itp then (1 + k, es, .interp)
      else
        let (k2, es2, e) := str3Body q start fl (rs.drop k) (offs + 1 + byteLen (rs.take k))
        (1 + k + k2, es ++ es2, e)
    else if c.toNat = 0 then
      let (k2, es2, e) := str3Body q start fl rs (offs + 1)
      (1 + k2, (offs, nulMsg) :: es2, e)
    else
      let (k2, es2, e) := str3Body q start fl rs (offs + c.utf8Size)
      (1 + k2, es2, e)

/-- Body of a backquoted raw string: no escape processing, runs to the
closing backquote or end of input. -/
def rawBody (start : Nat) : List Char → Nat × List (Nat × String) × Bool
  | [] => (0, [(start, rawNotTermMsg)], false)
  | c :: rs =>
    if c = bq then (1, [], true)
    else
      let (k, es, cl) := rawBody start rs
      (k + 1, es, cl)

/-- Remove carriage returns (literal text of raw and multi-line strings and
of comments). -/
def stripCR (cs : List Char) : List Char :=
  cs.filter (fun c => c ≠ '\r')

/-- Characters of a line comment after `//`, up to the line terminator. -/
def takeUntilNl : List Char → Nat
  | [] => 0
  | c :: rs => if c = '\n' then 0 else takeUntilNl rs + 1

/-- Body of a block comment after `/\*`, up to and including the closing
`\*/`; unterminated at end of input. -/
def blockBody (start : Nat) : Nat → List Char → Nat × List (Nat × String) × Bool
  | 0, _ => (0, [], false)
  | _ + 1, [] => (0, [(start, commentNotTermMsg)], false)
  | fl + 1, c :: rs =>
    match c, rs with
    | '*', '/' :: _ => (2, [], true)
    | _, _ =>
      let (k, es, cl) := blockBody start fl rs
      (k + 1, es, cl)

/-- Block-comment part of the line-end lookahead: `none` means a newline or
end of input was reached (a line end), `some rest` returns the input after
the closing marker of a block comment that contained no newline. -/
def fleBlock : Nat → List Char → Option (List Char)
  | 0, _ => none
  | _ + 1, [] => none
  | fl + 1, c :: rs =>
    match c, rs with
    | '\n', _ => none
    | '*', '/' :: rs2 => some rs2
    | _, _ => fleBlock fl rs

/-- Line-end lookahead used by comma insertion before comments: from a
comment opener, decide whether a newline or end of input occurs before the
next real token.  Pure lookahead, no state change. -/
def fle : Nat → List Char → Bool
  | 0, _ => false
  | fl + 1, cs =>
    match cs with
    | '/' :: '/' :: _ => true
    | '/' :: '*' :: rs =>
      (match fleBlock (rs.length + 1) rs with
       | none => true
       | some rest2 =>
         let rest3 := rest2.drop (takeWs true rest2)
         match rest3 with
         | [] => true
         | '\n' :: _ => true
         | _ => fle fl rest3)
    | _ => false

/-- Whether the head of the list opens a comment. -/
def isCommentStart : List Char → Bool
  | '/' :: '/' :: _ => true
  | '/' :: '*' :: _ => true
  | _ => false

/-- Directory part of a file name, as Go's filepath.Dir for slash paths. -/
def dirOf (name : String) : String :=
  let cs := name.toList
  if cs.contains '/' then
    String.mk (cs.take (cs.length - 1 - (cs.reverse.indexOf '/')))
  else "."

/-- Strip leading `./` segments (the fragment of path cleaning the
line-directive fixtures exercise). -/
def cleanPath : Nat → List Char → List Char
  | 0, cs => cs
  | fl + 1, cs =>
    match cs with
    | '.' :: '/' :: rs => cleanPath fl rs
    | _ => cs

/-- Join a directory and a relative path. -/
def joinDir (dir : String) (f : List Char) : String :=
  if dir = "" ∨ dir = "." then String.mk f else dir ++ "/" ++ String.mk f

/-- Index of the last colon in a list, if any. -/
def lastColonIdx (cs : List Char) : Option Nat :=
  match cs.reverse.indexOf? ':' with
  | none => none
  | some k => some (cs.length - 1 - k)

/-- Trim horizontal whitespace from both ends. -/
def trimWs (cs : List Char) : List Char :=
  ((cs.dropWhile (fun c => isHWs c)).reverse.dropWhile (fun c => isHWs c)).reverse

/-- Parse a nonempty all-digit numeral. -/
def parseNum (cs : List Char) : Option Nat :=
  if cs ≠ [] ∧ cs.all Char.isDigit then
    some (cs.foldl (fun a c => a * 10 + (c.toNat - 48)) 0)
  else none

/-- Interpretation of a candidate line-directive comment.  Modelled from the
spec and the `segments` fixtures of scanner_test.go: the comment text must
begin with the prefix "//line "; the line number is the all-digit text after
the last colon and must be positive; the virtual file name is the
whitespace-trimmed text between the prefix and that colon; a nonempty
relative name is cleaned and joined to the scanner's directory.  Returns
the virtual (filename, line) or `none` when the comment is ignored. -/
def interpretLineComment (dir : String) (text : List Char) : Option (String × Nat) :=
  if text.take 7 = "//line ".toList then
    let rest := text.drop 7
    match lastColonIdx rest with
    | none => none
    | some i =>
      match parseNum (rest.drop (i + 1)) with
      | none => none
      | some ln =>
        if ln = 0 then none
        else
          let nm := trimWs (rest.take i)
          if nm = [] then some ("", ln)
          else
            let nm2 := cleanPath nm.length nm
            if nm2.head? = some '/' then some (String.mk nm2, ln)
            else some (joinDir dir nm2, ln)
  else none

/-- Keyword table. -/
def kwLookup (lit : String) : Token :=
  if lit = "true" then .TRUE
  else if lit = "false" then .FALSE
  else if lit = "null" then .NULL
  else if lit = "for" then .FOR
  else if lit = "if" then .IF
  else if lit = "in" then .IN
  else .IDENT

/-- Tokens after which a newline or end of input triggers comma insertion
(the scanner's flag-setting set; ILLEGAL and INTERPOLATION are included so
that the `lines` fixtures of scanner_test.go hold). -/
def commaAfter : Token → Bool
  | .IDENT | .TRUE | .FALSE | .NULL | .INT | .FLOAT | .STRING
  | .INTERPOLATION | .BOTTOM | .RPAREN | .RBRACK | .RBRACE | .ILLEGAL => true
  | _ => false

/-- One scanned item: position (byte offset), token kind, literal text. -/
structure Item where
  pos : Nat
  tok : Token
  lit : String
  deriving DecidableEq, Repr

/-- The left curly bracket character. -/
def lbr : Char := Char.ofNat 123

/-- The right curly bracket character. -/
def rbr : Char := Char.ofNat 125

/-- Operator, punctuation and illegal-character dispatch; `s1.rest = c :: rs`
and `c` is none of the cases handled earlier in `scanOne`. -/
def opScan (m : Mode) (s1 : St) (c : Char) (rs : List Char) : Item × St :=
  let one (t : Token) : Item × St :=
    (⟨s1.offs, t, ""⟩, (advance s1).setCommaM m (commaAfter t))
  let two (t : Token) : Item × St :=
    (⟨s1.offs, t, ""⟩, (advanceN s1 2).setCommaM m (commaAfter t))
  if c = ',' then (⟨s1.offs, .COMMA, ","⟩, (advance s1).setCommaM m false)
  else if c = '.' then
    if rs.take 2 = ['.', '.'] then
      (⟨s1.offs, .ELLIPSIS, ""⟩, (advanceN s1 3).setCommaM m false)
    else one .PERIOD
  else if c = '(' then one .LPAREN
  else if c = '[' then one .LBRACK
  else if c = lbr then one .LBRACE
  else if c = ')' then one .RPAREN
  else if c = ']' then one .RBRACK
  else if c = rbr then one .RBRACE
  else if c = ':' then one .COLON
  else if c = '+' then one .ADD
  else if c = '-' then one .SUB
  else if c = '*' then one .MUL
  else if c = '/' then one .QUO
  else if c = '%' then one .REM
  else if c = '&' then (if rs.head? = some '&' then two .LAND else one .UNIFY)
  else if c = '|' then (if rs.head? = some '|' then two .LOR else one .DISJUNCTION)
  else if c = '=' then (if rs.head? = some '=' then two .EQL else one .BIND)
  else if c = '!' then (if rs.head? = some '=' then two .NEQ else one .NOT)
  else if c = '<' then (if rs.head? = some '=' then two .LEQ else one .LSS)
  else if c = '>' then (if rs.head? = some '=' then two .GEQ else one .GTR)
  else
    let s2 := advance (if c = bomChar then s1 else s1.addErr (s1.offs, illegalCharMsg c))
    (⟨s1.offs, .ILLEGAL, String.singleton c⟩, s2.setCommaM m true)

/-- One `Scan()` call.  Skips whitespace, then dispatches on the current
character; synthesizes a COMMA at a newline, at end of input, or in front
of a line-ending comment when the insertion flag is set.  The fuel bounds
the internal restarts after a skipped comment or a semicolon and is always
called with at least `rest.length + 1`. -/
def scanOne (dir : String) (m : Mode) : Nat → St → Item × St
  | 0, s => (⟨s.offs, .EOF, ""⟩, s)
  | fl + 1, s =>
    let s1 := advanceN s (takeWs s.insertComma s.rest)
    match s1.rest with
    | [] =>
      if s1.insertComma then (⟨s1.offs, .COMMA, "\n"⟩, s1.setComma false)
      else (⟨s1.offs, .EOF, ""⟩, s1)
    | c :: rs =>
      if c = '\n' then
        (⟨s1.offs, .COMMA, "\n"⟩, (advance s1).setComma false)
      else if c = ';' then
        scanOne dir m fl (advance s1)
      else if isLetter c then
        let n := takeIdent s1.rest
        let lit := s1.rest.take n
        if lit = ['_'] ∧ rs.head? = some '|' then
          let s2 := advanceN s1 2
          match s2.rest with
          | '_' :: _ =>
            (⟨s1.offs, .BOTTOM, "_|_"⟩, (advance s2).setCommaM m true)
          | _ =>
            (⟨s1.offs, .ILLEGAL, "_|"⟩, (s2.addErr (s1.offs, bottomMsg)).setCommaM m true)
        else
          let tok := kwLookup (String.mk lit)
          (⟨s1.offs, tok, String.mk lit⟩, (advanceN s1 n).setCommaM m (commaAfter tok))
      else if c.isDigit then
        let r := if c = '0' then scanNumZero s1 else scanNumDec s1
        (⟨s1.offs, r.1, String.mk r.2.1⟩, r.2.2.setCommaM m true)
      else if c = '.' ∧ rs.head?.elim false Char.isDigit then
        let r := scanNumDot s1
        (⟨s1.offs, r.1, String.mk r.2.1⟩, r.2.2.setCommaM m true)
      else if c = '"' ∨ c = '\'' then
        if rs.take 2 = [c, c] then
          let s2 := advanceN s1 3
          let r := str3Body c s1.offs (s2.rest.length + 1) s2.rest s2.offs
          let body := s2.rest.take r.1
          let tok := if r.2.2 = StrEnd.interp then Token.INTERPOLATION else Token.STRING
          (⟨s1.offs, tok, String.mk (stripCR ([c, c, c] ++ body))⟩,
            ((advanceN s2 r.1).addErrs r.2.1).setCommaM m true)
        else if rs.head? = some c then
          (⟨s1.offs, .STRING, String.mk [c, c]⟩, (advanceN s1 2).setCommaM m true)
        else
          let s2 := advance s1
          let r := strBody c s1.offs (s2.rest.length + 1) s2.rest s2.offs
          let body := s2.rest.take r.1
          let tok := if r.2.2 = StrEnd.interp then Token.INTERPOLATION else Token.STRING
          (⟨s1.offs, tok, String.mk (c :: body)⟩,
            ((advanceN s2 r.1).addErrs r.2.1).setCommaM m true)
      else if c = bq then
        let s2 := advance s1
        let r := rawBody s1.offs s2.rest
        let body := s2.rest.take r.1
        (⟨s1.offs, .STRING, String.mk (stripCR (bq :: body))⟩,
          ((advanceN s2 r.1).addErrs r.2.1).setCommaM m true)
      else if isCommentStart s1.rest then
        if s1.insertComma && fle (s1.rest.length + 1) s1.rest then
          (⟨s1.offs, .COMMA, "\n"⟩, s1.setComma false)
        else if rs.head? = some '/' then
          let k := 2 + takeUntilNl (s1.rest.drop 2)
          let text := s1.rest.take k
          let s2 := advanceN s1 k
          let s3 :=
            if s1.offs = s1.lineOffset then
              match interpretLineComment dir text with
              | some fl2 => s2.addInfo (s1.offs + byteLen text + 1, fl2.1, fl2.2)
              | none => s2
            else s2
          if m.scanComments then
            (⟨s1.offs, .COMMENT, String.mk (stripCR text)⟩, s3.setCommaM m false)
          else scanOne dir m fl s3
        else
          let r := blockBody s1.offs (s1.rest.length + 1) (s1.rest.drop 2)
          let k := 2 + r.1
          let text := s1.rest.take k
          let s2 := (advanceN s1 k).addErrs r.2.1
          if m.scanComments then
            (⟨s1.offs, .COMMENT, String.mk (stripCR text)⟩, s2.setCommaM m false)
          else scanOne dir m fl s2
      else opScan m s1 c rs

/-- Run the scanner: a list of (item, cursor offset after the item) pairs,
ending with the first EOF item, together with the final state. -/
def scanRun (dir : String) (m : Mode) : Nat → St → List (Item × Nat) × St
  | 0, s => ([], s)
  | f + 1, s =>
    let r := scanOne dir m (s.rest.length + 1) s
    if r.1.tok = Token.EOF then ([(r.1, r.2.offs)], r.2)
    else
      let l := scanRun dir m f r.2
      ((r.1, r.2.offs) :: l.1, l.2)

/-- Fuel that always suffices to reach EOF (see the progress measure). -/
def stdFuel (src : List Char) : Nat := 2 * src.length + 2

/-- Initial state over a source: a byte order mark at offset 0 is silently
consumed before the first character is loaded. -/
def initSt (src : List Char) : St :=
  let s0 : St := ⟨src, 0, 0, false, [], []⟩
  match src with
  | c :: _ => if c = bomChar then advance s0 else s0
  | [] => s0

/-- The scanned items (with end offsets) of a whole source. -/
def scanAllE (dir : String) (m : Mode) (src : List Char) : List (Item × Nat) :=
  (scanRun dir m (stdFuel src) (initSt src)).1

/-- The scanned items of a whole source. -/
def scanAll (dir : String) (m : Mode) (src : List Char) : List Item :=
  (scanAllE dir m src).map Prod.fst

/-- The final scanner state of a whole source. -/
def scanFinal (dir : String) (m : Mode) (src : List Char) : St :=
  (scanRun dir m (stdFuel src) (initSt src)).2

/-- The raw faults (offset, message) of scanning a whole source. -/
def scanErrs (dir : String) (m : Mode) (src : List Char) : List (Nat × String) :=
  (scanFinal dir m src).errs

/-- A resolved source position. -/
structure Position where
  filename : String
  offset : Nat
  line : Nat
  column : Nat
  deriving DecidableEq, Repr

/-- Byte offsets of the newline characters of a source. -/
def nlOffsets : List Char → Nat → List Nat
  | [], _ => []
  | c :: rs, o => (if c = '\n' then [o] else []) ++ nlOffsets rs (o + c.utf8Size)

/-- Byte offsets at which lines start (line 1 starts at offset 0). -/
def lineStarts (src : List Char) : List Nat :=
  0 :: (nlOffsets src 0).map (· + 1)

/-- 1-based physical line of a byte offset. -/
def lineOf (src : List Char) (p : Nat) : Nat :=
  ((lineStarts src).filter (fun o => decide (o ≤ p))).length

/-- Start offset of the line containing a byte offset. -/
def lineStartOf (src : List Char) (p : Nat) : Nat :=
  ((lineStarts src).filter (fun o => decide (o ≤ p))).foldl max 0

/-- Last line-directive record whose threshold offset is at most `p`. -/
def lastInfoLE (p : Nat) : List (Nat × String × Nat) → Option (Nat × String × Nat)
  | [] => none
  | i :: is =>
    match lastInfoLE p is with
    | some j => some j
    | none => if i.1 ≤ p then some i else none

/-- Resolve a byte offset to a position: physical line and column from the
line-start table, then the last applicable line-directive override
substitutes its virtual filename and adjusts the line. -/
def resolve (fname : String) (src : List Char) (infos : List (Nat × String × Nat))
    (p : Nat) : Position :=
  let ln := lineOf src p
  let col := p + 1 - lineStartOf src p
  match lastInfoLE p infos with
  | none => ⟨fname, p, ln, col⟩
  | some i => ⟨i.2.1, p, ln + i.2.2 - lineOf src i.1, col⟩

/-- Faults of a scan, with positions resolved through the file's
line-directive overrides (what an error handler attached to a file named
`fname` collects). -/
def runErrors (fname : String) (m : Mode) (src : List Char) : List (Position × String) :=
  let sF := scanFinal (dirOf fname) m src
  sF.errs.map (fun e => (resolve fname src sF.infos e.1, e.2))

/-- Byte-lexicographic string order (Go's string comparison). -/
def listLex : List Char → List Char → Bool
  | [], [] => false
  | [], _ :: _ => true
  | _ :: _, [] => false
  | c :: cs, d :: ds =>
    if c.toNat < d.toNat then true
    else if d.toNat < c.toNat then false
    else listLex cs ds

/-- Error-list order: by filename, then line, then column, with ties broken
by message text. -/
def entryBefore (a b : Position × String) : Bool :=
  if a.1.filename ≠ b.1.filename then listLex a.1.filename.toList b.1.filename.toList
  else if a.1.line ≠ b.1.line then decide (a.1.line < b.1.line)
  else if a.1.column ≠ b.1.column then decide (a.1.column < b.1.column)
  else !(listLex b.2.toList a.2.toList)

def insertE (e : Position × String) : List (Position × String) → List (Position × String)
  | [] => [e]
  | x :: xs => if entryBefore e x then e :: x :: xs else x :: insertE e xs

/-- `List.Sort()` of the error list: insertion sort by `entryBefore`. -/
def sortE : List (Position × String) → List (Position × String)
  | [] => []
  | x :: xs => insertE x (sortE xs)

/-- Adjacent-pairs order check used to state sortedness. -/
def pairwiseOrdered : List (Position × String) → Bool
  | [] => true
  | [_] => true
  | a :: b :: rs => entryBefore a b && pairwiseOrdered (b :: rs)

def removeMultiplesAux : Position → List (Position × String) → List (Position × String)
  | _, [] => []
  | last, e :: es =>
    if last.filename = e.1.filename ∧ last.line = e.1.line then removeMultiplesAux last es
    else e :: removeMultiplesAux e.1 es

/-- `List.RemoveMultiples()`: keep the first fault of each (filename, line)
group of a sorted list. -/
def removeMultiples : List (Position × String) → List (Position × String)
  | [] => []
  | e :: es => e :: removeMultiplesAux e.1 es

/-- One source unit of a file set. -/
structure File where
  name : String
  base : Nat
  size : Nat
  deriving DecidableEq, Repr

/-- Next free base offset of a file set. -/
def nextBase (fs : List File) : Nat :=
  fs.foldl (fun b f => max b (f.base + f.size + 1)) 1

/-- Register a source unit at the next free base. -/
def addFile (fs : List File) (name : String) (size : Nat) : List File × File :=
  let f : File := ⟨name, nextBase fs, size⟩
  (fs ++ [f], f)

/-- The scanner object: configuration fixed by `Init` plus the live cursor
state and the interpolation stack. -/
structure Scanner where
  file : File
  dir : String
  src : List Char
  mode : Mode
  st : St
  quoteStack : List (Char × Nat)
  deriving Repr

/-- `Init`: every field of the receiver is overwritten; no state of a
previous use survives. -/
def Scanner.init (_prev : Scanner) (f : File) (src : List Char) (m : Mode) : Scanner :=
  { file := f, dir := dirOf f.name, src := src, mode := m, st := initSt src,
    quoteStack := [] }

/-- A freshly constructed (zero) scanner. -/
def Scanner.mkNew : Scanner :=
  { file := ⟨"", 0, 0⟩, dir := "", src := [], mode := ⟨false, false⟩,
    st := initSt [], quoteStack := [] }

/-- One `Scan()` call at the scanner level; an INTERPOLATION token records
the pending quote on the interpolation stack. -/
def Scanner.scan (sc : Scanner) : Item × Scanner :=
  let r := scanOne sc.dir sc.mode (sc.st.rest.length + 1) sc.st
  (r.1,
   { sc with
     st := r.2
     quoteStack :=
       if r.1.tok = Token.INTERPOLATION then
         (r.1.lit.toList.headD '"', 1) :: sc.quoteStack
       else sc.quoteStack })

/-- `ResumeInterpolation`: re-enter string-body scanning with the given
quote character and return the next literal segment. -/
def Scanner.resumeInterpolation (sc : Scanner) (quote : Char) (_level : Nat) :
    String × Scanner :=
  let r := strBody quote sc.st.offs (sc.st.rest.length + 1) sc.st.rest sc.st.offs
  let body := sc.st.rest.take r.1
  (String.mk body,
   { sc with
     st := (advanceN sc.st r.1).addErrs r.2.1
     quoteStack :=
       if r.2.2 = StrEnd.interp then sc.quoteStack else sc.quoteStack.drop 1 })

/-- Advance a scanner by `k` Scan calls. -/
def scanSteps : Nat → Scanner → Scanner
  | 0, sc => sc
  | k + 1, sc => scanSteps k sc.scan.2

/-- The terminator set of the comma-insertion rule, as the specification
lists it: identifier, the keywords true/false/null, the literal kinds
INT/FLOAT/STRING/BOTTOM, and closing punctuation. -/
def TermTok : Token → Bool
  | .IDENT | .TRUE | .FALSE | .NULL | .INT | .FLOAT | .STRING | .BOTTOM
  | .RPAREN | .RBRACK | .RBRACE => true
  | _ => false

/-- A synthesized comma: token COMMA with literal a newline. -/
def isSynth (it : Item) : Bool :=
  it.tok == Token.COMMA && it.lit == "\n"

/-- Character at a byte offset of a source (none between the bytes of a
multi-byte character or past the end). -/
def charAt : List Char → Nat → Option Char
  | [], _ => none
  | c :: rs, p =>
    if p = 0 then some c
    else if p < c.utf8Size then none
    else charAt rs (p - c.utf8Size)

end CueScan

namespace CueScan

set_option maxRecDepth 100000

/-! ## Helper lemmas about digit runs and cursor movement -/

/-- The ten decimal digit characters. -/
def decDigits : List Char := ['0', '1', '2', '3', '4', '5', '6', '7', '8', '9']

theorem decDigit_facts : ∀ c ∈ decDigits,
    digitVal c < 10 ∧ c.utf8Size = 1 ∧ c.isDigit = true ∧ isLetter c = false ∧
    isHWs c = false ∧ c ≠ '\n' ∧ c ≠ ';' ∧ c ≠ us ∧ c ≠ bomChar ∧ c ≠ '.' ∧
    c ≠ 'x' ∧ c ≠ 'X' ∧ c ≠ 'b' ∧ c ≠ 'B' ∧ c ≠ 'o' ∧ c ≠ 'O' ∧
    c ≠ 'e' ∧ c ≠ 'E' ∧ isMult c = false ∧ c ≠ '"' ∧ c ≠ '\'' ∧ c ≠ bq ∧
    c ≠ '/' := by decide

theorem byteLen_nil : byteLen [] = 0 := rfl

theorem byteLen_cons (c : Char) (cs : List Char) :
    byteLen (c :: cs) = c.utf8Size + byteLen cs := rfl

theorem byteLen_ascii : ∀ cs : List Char, (∀ c ∈ cs, c.utf8Size = 1) →
    byteLen cs = cs.length := by
  intro cs
  induction cs with
  | nil => intro; rfl
  | cons c cs ih =>
    intro h
    rw [byteLen_cons, h c (by simp), ih (fun d hd => h d (by simp [hd]))]
    simp [Nat.add_comm]

theorem takeMantissa10_digits :
    ∀ ds r : List Char, (∀ c ∈ ds, c ∈ decDigits) →
      takeMantissa 10 (ds ++ r) = ds.length + takeMantissa 10 r := by
  intro ds
  induction ds with
  | nil => intro r _; simp
  | cons c cs ih =>
    intro r h
    have hc := decDigit_facts c (h c (by simp))
    show takeMantissa 10 (c :: (cs ++ r)) = cs.length + 1 + takeMantissa 10 r
    rw [takeMantissa, if_pos (Or.inl hc.1), ih r (fun d hd => h d (by simp [hd]))]
    omega

theorem usErrs_digits :
    ∀ (ds : List Char) (o : Nat) (last : Option Char),
      (∀ c ∈ ds, c ∈ decDigits) → last ≠ some us → usErrs o last ds = [] := by
  intro ds
  induction ds with
  | nil => intro o last _ hl; simp [usErrs, hl]
  | cons c cs ih =>
    intro o last h hl
    have hc := decDigit_facts c (h c (by simp))
    rw [usErrs, if_neg (fun hp => hc.2.2.2.2.2.2.2.1 hp.1),
      ih _ (some c) (fun d hd => h d (by simp [hd]))
        (fun he => hc.2.2.2.2.2.2.2.1 (Option.some.inj he))]
    rfl

theorem addErrs_nil (s : St) : s.addErrs [] = s := by
  cases s; simp [St.addErrs]

theorem setCommaM_dic (s : St) (b : Bool) : s.setCommaM ⟨true, true⟩ b = s := rfl

/-- Advancing through characters that are neither newlines nor byte order
marks, with no byte order mark immediately after, just moves the cursor. -/
theorem advanceN_clean :
    ∀ (ds : List Char) (s : St) (r : List Char), s.rest = ds ++ r →
      (∀ c ∈ ds, c ≠ '\n' ∧ c ≠ bomChar) →
      (∀ c, r.head? = some c → c ≠ bomChar) →
      advanceN s ds.length = { s with rest := r, offs := s.offs + byteLen ds } := by
  intro ds
  induction ds with
  | nil =>
    intro s r h _ _
    simp only [List.nil_append] at h
    cases s
    simp_all [advanceN, byteLen]
  | cons c cs ih =>
    intro s r h hds hr
    have hc := hds c (by simp)
    have hbom : bomErrAt (s.offs + c.utf8Size) (cs ++ r) = [] := by
      cases cs with
      | nil =>
        simp only [List.nil_append]
        cases r with
        | nil => rfl
        | cons d rs =>
          simp only [bomErrAt, if_neg (hr d rfl)]
      | cons d ds2 =>
        have hd := hds d (by simp)
        simp only [List.cons_append, bomErrAt, if_neg hd.2]
    have hadv : advance s =
        { s with rest := cs ++ r, offs := s.offs + c.utf8Size } := by
      cases s with
      | mk rest offs lo ic errs infos =>
        simp only at h
        simp only [advance, h, List.cons_append, hbom, if_neg hc.1, List.append_nil]
    show advanceN (advance s) cs.length = _
    rw [hadv, ih _ r rfl (fun d hd => hds d (by simp [hd])) hr]
    simp only [byteLen_cons]
    congr 1
    omega

theorem dd_digitVal : ∀ c ∈ decDigits, digitVal c < 10 := by decide
theorem dd_utf8 : ∀ c ∈ decDigits, c.utf8Size = 1 := by decide
theorem dd_isDigit : ∀ c ∈ decDigits, c.isDigit = true := by decide
theorem dd_not_letter : ∀ c ∈ decDigits, isLetter c = false := by decide
theorem dd_not_hws : ∀ c ∈ decDigits, isHWs c = false := by decide
theorem dd_not_nl : ∀ c ∈ decDigits, c ≠ '\n' := by decide
theorem dd_not_semi : ∀ c ∈ decDigits, c ≠ ';' := by decide
theorem dd_not_us : ∀ c ∈ decDigits, c ≠ us := by decide
theorem dd_not_bom : ∀ c ∈ decDigits, c ≠ bomChar := by decide
theorem dd_not_dot : ∀ c ∈ decDigits, c ≠ '.' := by decide
theorem dd_not_radix : ∀ c ∈ decDigits,
    ¬(c = 'x' ∨ c = 'X') ∧ ¬(c = 'b' ∨ c = 'B') ∧ ¬(c = 'o' ∨ c = 'O') := by decide
theorem dd_not_exp : ∀ c ∈ decDigits, ¬(c = 'e' ∨ c = 'E') := by decide
theorem dd_not_sign : ∀ c ∈ decDigits, ¬(c = '+' ∨ c = '-') := by decide
theorem dd_clean : ∀ c ∈ decDigits, c ≠ '\n' ∧ c ≠ bomChar := by decide

/-- The unit-multiplier suffix characters. -/
def multChars : List Char := ['K', 'M', 'G', 'T', 'P', 'E']

theorem mc_isMult : ∀ c ∈ multChars, isMult c = true := by decide
theorem mc_utf8 : ∀ c ∈ multChars, c.utf8Size = 1 := by decide
theorem mc_stop : ∀ c ∈ multChars, ¬(digitVal c < 10 ∨ c = us) := by decide
theorem mc_not_bom : ∀ c ∈ multChars, c ≠ bomChar := by decide
theorem mc_not_dot : ∀ c ∈ multChars, c ≠ '.' := by decide

/-- Entering a digit run: characters consumed, cursor moved, no separator
faults, when the run is `ds` (all decimal digits) followed by `r` at which
the run stops. -/
theorem mantissa_step (s : St) (ds r : List Char)
    (hrest : s.rest = ds ++ r) (hds : ∀ c ∈ ds, c ∈ decDigits)
    (hstop : takeMantissa 10 r = 0)
    (hbom : ∀ c, r.head? = some c → c ≠ bomChar) :
    takeMantissa 10 s.rest = ds.length ∧
    s.rest.take ds.length = ds ∧
    (advanceN s ds.length).addErrs (usErrs s.offs none ds) =
      { s with rest := r, offs := s.offs + ds.length } := by
  refine ⟨?_, ?_, ?_⟩
  · rw [hrest, takeMantissa10_digits ds r hds, hstop]; omega
  · rw [hrest, List.take_left]

  · rw [usErrs_digits ds _ none hds (by simp), addErrs_nil,
      advanceN_clean ds s r hrest (fun c hc => dd_clean c (hds c hc)) hbom,
      byteLen_ascii ds (fun c hc => dd_utf8 c (hds c hc))]

theorem advance_one (s : St) (c : Char) (r : List Char)
    (hrest : s.rest = c :: r) (hc : c ≠ '\n' ∧ c ≠ bomChar ∧ c.utf8Size = 1)
    (hbom : ∀ x, r.head? = some x → x ≠ bomChar) :
    advance s = { s with rest := r, offs := s.offs + 1 } := by
  have h := advanceN_clean [c] s r (by simpa using hrest)
    (by intro x hx; simp at hx; subst hx; exact ⟨hc.1, hc.2.1⟩)
    hbom
  simpa [advanceN, byteLen, hc.2.2] using h

theorem numTail_nil (tok0 : Token) (s : St) (h : s.rest = []) :
    numTail tok0 s = (tok0, [], s) := by
  simp [numTail, multTail, expTail, h]

theorem numTail_nil_mk (tok0 : Token) (o lo : Nat) (ic : Bool)
    (e : List (Nat × String)) (i : List (Nat × String × Nat)) :
    numTail tok0 ⟨[], o, lo, ic, e, i⟩ = (tok0, [], ⟨[], o, lo, ic, e, i⟩) :=
  numTail_nil tok0 _ rfl

theorem expTail_digits (s : St) (e : Char) (ds : List Char)
    (hrest : s.rest = e :: ds) (he : e = 'e' ∨ e = 'E')
    (hds : ∀ c ∈ ds, c ∈ decDigits) :
    expTail s = some (e :: ds, { s with rest := [], offs := s.offs + 1 + ds.length }) := by
  have hadv : advance s = { s with rest := ds, offs := s.offs + 1 } := by
    refine advance_one s e ds hrest ⟨?_, ?_, ?_⟩ ?_
    · rcases he with rfl | rfl <;> decide
    · rcases he with rfl | rfl <;> decide
    · rcases he with rfl | rfl <;> decide
    · intro x hx
      cases ds with
      | nil => simp at hx
      | cons d ds2 =>
        simp at hx; subst hx
        exact dd_not_bom d (hds d (by simp))
  have hm := mantissa_step { s with rest := ds, offs := s.offs + 1 } ds []
    (by simp) hds rfl (by simp)
  cases ds with
  | nil =>
    simp only [expTail, hrest, if_pos he, hadv]
    simp
  | cons d ds2 =>
    have hd := hds d (by simp)
    simp only at hm
    simp only [expTail, hrest, if_pos he, hadv, if_neg (dd_not_sign d hd),
      hm.1, hm.2.1, hm.2.2]

theorem multTail_some (s : St) (mc : Char) (suf : List Char)
    (hrest : s.rest = mc :: suf) (hmc : mc ∈ multChars)
    (hsuf : suf = [] ∨ suf = ['i']) :
    multTail s = some (mc :: suf,
      { s with rest := [], offs := s.offs + 1 + suf.length }) := by
  have hbase : ∀ x, ([] : List Char).head? = some x → x ≠ bomChar := by simp
  rcases hsuf with rfl | rfl
  · have hadv : advance s = { s with rest := [], offs := s.offs + 1 } :=
      advance_one s mc [] hrest
        ⟨fun h => by revert hmc; rw [h]; decide, mc_not_bom mc hmc, mc_utf8 mc hmc⟩
        hbase
    simp [multTail, hrest, mc_isMult mc hmc, hadv]
  · have hadv : advance s = { s with rest := ['i'], offs := s.offs + 1 } :=
      advance_one s mc ['i'] hrest
        ⟨fun h => by revert hmc; rw [h]; decide, mc_not_bom mc hmc, mc_utf8 mc hmc⟩
        (by intro x hx; simp at hx; subst hx; decide)
    have hadv2 : advance { s with rest := ['i'], offs := s.offs + 1 } =
        { s with rest := [], offs := s.offs + 1 + 1 } := by
      refine advance_one _ 'i' [] (by simp) (by refine ⟨by decide, by decide, by decide⟩) hbase
    simp [multTail, hrest, mc_isMult mc hmc, hadv, advanceN, hadv2]

theorem numTail_mult (tok0 : Token) (s : St) (mc : Char) (suf : List Char)
    (hrest : s.rest = mc :: suf) (hmc : mc ∈ multChars)
    (hsuf : suf = [] ∨ suf = ['i']) :
    numTail tok0 s = (Token.INT, mc :: suf,
      { s with rest := [], offs := s.offs + 1 + suf.length }) := by
  simp [numTail, multTail_some s mc suf hrest hmc hsuf]

theorem fracTail_not_dot (tok0 : Token) (s : St)
    (h : s.rest = [] ∨ ∃ c rs, s.rest = c :: rs ∧ c ≠ '.') :
    fracTail tok0 s = numTail tok0 s := by
  rcases h with h | ⟨c, rs, h, hc⟩
  · simp [fracTail, h]
  · simp [fracTail, h, hc]

theorem fracTail_dot (tok0 : Token) (s : St) (ds2 r : List Char)
    (hrest : s.rest = '.' :: (ds2 ++ r)) (hds2 : ∀ c ∈ ds2, c ∈ decDigits)
    (hstop : takeMantissa 10 r = 0)
    (hbom : ∀ c, r.head? = some c → c ≠ bomChar) :
    fracTail tok0 s =
      (let q := numTail Token.FLOAT
        { s with rest := r, offs := s.offs + 1 + ds2.length }
       (q.1, '.' :: ds2 ++ q.2.1, q.2.2)) := by
  have hbom1 : ∀ x, (ds2 ++ r).head? = some x → x ≠ bomChar := by
    intro x hx
    cases ds2 with
    | nil => exact hbom x (by simpa using hx)
    | cons d dds =>
      simp at hx; subst hx
      exact dd_not_bom d (hds2 d (by simp))
  have hadv : advance s = { s with rest := ds2 ++ r, offs := s.offs + 1 } :=
    advance_one s '.' (ds2 ++ r) hrest ⟨by decide, by decide, by decide⟩ hbom1
  have hm := mantissa_step { s with rest := ds2 ++ r, offs := s.offs + 1 } ds2 r
    rfl hds2 hstop hbom
  simp only at hm
  simp only [fracTail, hrest, List.head?_cons, if_pos rfl, hadv, hm.1, hm.2.1, hm.2.2,
    if_true]

theorem zeroTail_nil (o n : Nat) (ds : List Char) (s2 : St)
    (h : s2.rest = []) (hn : n ≠ 0) :
    zeroTail o n ds s2 = (Token.INT, '0' :: ds, s2.addErr (o, illIntMsg)) := by
  simp [zeroTail, h, hn]

theorem zeroTail_exp (o n : Nat) (ds : List Char) (s2 : St) (e : Char)
    (ds2 : List Char) (hrest : s2.rest = e :: ds2) (he : e = 'e' ∨ e = 'E')
    (hds2 : ∀ c ∈ ds2, c ∈ decDigits) :
    zeroTail o n ds s2 = (Token.FLOAT, '0' :: ds ++ e :: ds2,
      { s2 with rest := [], offs := s2.offs + 1 + ds2.length }) := by
  have hdot : e ≠ '.' := by rcases he with rfl | rfl <;> decide
  simp only [zeroTail, hrest, List.head?_cons, if_neg hdot, if_pos he,
    expTail_digits s2 e ds2 hrest he hds2]

theorem zeroTail_dot (o n : Nat) (ds : List Char) (s2 : St) (ds2 r2 : List Char)
    (hrest : s2.rest = '.' :: (ds2 ++ r2)) (hds2 : ∀ c ∈ ds2, c ∈ decDigits)
    (hstop2 : takeMantissa 10 r2 = 0)
    (hbom2 : ∀ c, r2.head? = some c → c ≠ bomChar) :
    zeroTail o n ds s2 =
      (let q := numTail Token.FLOAT
        { s2 with rest := r2, offs := s2.offs + 1 + ds2.length }
       (q.1, '0' :: ds ++ '.' :: ds2 ++ q.2.1, q.2.2)) := by
  simp only [zeroTail, hrest, List.head?_cons, if_pos rfl, if_true,
    fracTail_dot Token.INT s2 ds2 r2 hrest hds2 hstop2 hbom2]
  simp

/-- Evaluation of a leading-zero number whose digit run is `d :: ds` and
which stops at `r`. -/
theorem scanNumZero_eval (s : St) (d : Char) (ds r : List Char)
    (hrest : s.rest = '0' :: d :: (ds ++ r)) (hd : d ∈ decDigits)
    (hds : ∀ c ∈ ds, c ∈ decDigits) (hstop : takeMantissa 10 r = 0)
    (hbom : ∀ c, r.head? = some c → c ≠ bomChar) :
    scanNumZero s = zeroTail s.offs (d :: ds).length (d :: ds)
      { s with rest := r, offs := s.offs + 1 + (d :: ds).length } := by
  have hmem : ∀ c ∈ d :: ds, c ∈ decDigits := by
    intro c hc
    rcases List.mem_cons.mp hc with rfl | hc2
    · exact hd
    · exact hds c hc2
  have hbomd : ∀ x, (d :: (ds ++ r)).head? = some x → x ≠ bomChar := by
    intro x hx; simp at hx; subst hx; exact dd_not_bom d hd
  have hadv : advance s = { s with rest := d :: (ds ++ r), offs := s.offs + 1 } :=
    advance_one s '0' _ hrest ⟨by decide, by decide, by decide⟩ hbomd
  have hm := mantissa_step { s with rest := d :: (ds ++ r), offs := s.offs + 1 }
    (d :: ds) r (by simp) hmem hstop hbom
  simp only at hm
  have hrx := dd_not_radix d hd
  simp only [scanNumZero, hadv, List.head?_cons, if_neg hrx.1, if_neg hrx.2.1,
    if_neg hrx.2.2, hm.1, hm.2.1, hm.2.2]

/-- Evaluation of a decimal number whose digit run is `d :: ds` and which
stops at `r`. -/
theorem scanNumDec_eval (s : St) (d : Char) (ds r : List Char)
    (hrest : s.rest = d :: (ds ++ r)) (hd : d ∈ decDigits)
    (hds : ∀ c ∈ ds, c ∈ decDigits) (hstop : takeMantissa 10 r = 0)
    (hbom : ∀ c, r.head? = some c → c ≠ bomChar) :
    scanNumDec s =
      (let q := fracTail Token.INT
        { s with rest := r, offs := s.offs + (d :: ds).length }
       (q.1, (d :: ds) ++ q.2.1, q.2.2)) := by
  have hmem : ∀ c ∈ d :: ds, c ∈ decDigits := by
    intro c hc
    rcases List.mem_cons.mp hc with rfl | hc2
    · exact hd
    · exact hds c hc2
  have hm := mantissa_step s (d :: ds) r (by simpa using hrest) hmem hstop hbom
  simp only [scanNumDec, hm.1, hm.2.1, hm.2.2]

/-- Evaluation of a number starting at a decimal point whose fraction run
is `ds2` and which stops at `r`. -/
theorem scanNumDot_eval (s : St) (ds2 r : List Char)
    (hrest : s.rest = '.' :: (ds2 ++ r)) (hds2 : ∀ c ∈ ds2, c ∈ decDigits)
    (hstop : takeMantissa 10 r = 0)
    (hbom : ∀ c, r.head? = some c → c ≠ bomChar) :
    scanNumDot s =
      (let q := numTail Token.FLOAT
        { s with rest := r, offs := s.offs + 1 + ds2.length }
       (q.1, '.' :: ds2 ++ q.2.1, q.2.2)) := by
  have hbom1 : ∀ x, (ds2 ++ r).head? = some x → x ≠ bomChar := by
    intro x hx
    cases ds2 with
    | nil => exact hbom x (by simpa using hx)
    | cons e dds =>
      simp at hx; subst hx
      exact dd_not_bom e (hds2 e (by simp))
  have hadv : advance s = { s with rest := ds2 ++ r, offs := s.offs + 1 } :=
    advance_one s '.' (ds2 ++ r) hrest ⟨by decide, by decide, by decide⟩ hbom1
  have hm := mantissa_step { s with rest := ds2 ++ r, offs := s.offs + 1 } ds2 r
    rfl hds2 hstop hbom
  simp only at hm
  simp only [scanNumDot, hadv, hm.1, hm.2.1, hm.2.2]

/-- `Scan()` at a decimal digit dispatches to the number scanner and sets
the comma-insertion flag. -/
theorem scanOne_number (dir : String) (m : Mode) (fl : Nat) (s : St)
    (d : Char) (rs : List Char) (hrest : s.rest = d :: rs) (hd : d ∈ decDigits) :
    scanOne dir m (fl + 1) s =
      (let q := if d = '0' then scanNumZero s else scanNumDec s
       (⟨s.offs, q.1, String.mk q.2.1⟩, q.2.2.setCommaM m true)) := by
  have hwshead : (isHWs d || (!s.insertComma && d == '\n')) = false := by
    simp [dd_not_hws d hd, dd_not_nl d hd]
  have h1 : takeWs s.insertComma (d :: rs) = 0 := by
    simp [takeWs, hwshead]
  simp only [scanOne, hrest, h1, advanceN, dd_not_letter d hd, dd_isDigit d hd,
    Bool.false_eq_true, if_false, if_true,
    if_neg (dd_not_nl d hd), if_neg (dd_not_semi d hd)]

/-- `Scan()` at end of input with the comma flag off returns EOF. -/
theorem scanOne_eof (dir : String) (m : Mode) (fl : Nat) (s : St)
    (h : s.rest = []) (hic : s.insertComma = false) :
    scanOne dir m (fl + 1) s = (⟨s.offs, Token.EOF, ""⟩, s) := by
  simp [scanOne, h, takeWs, advanceN, hic]

theorem initSt_plain (src : List Char) (h : src.head? ≠ some bomChar) :
    initSt src = ⟨src, 0, 0, false, [], []⟩ := by
  cases src with
  | nil => rfl
  | cons c rs =>
    simp only [List.head?_cons, ne_eq, Option.some.injEq] at h
    simp [initSt, h]

/-- A whole-source scan that produces exactly one real token: the first
Scan call returns `it` ending in a state at end of input with the comma
flag off, and the second returns EOF. -/
theorem scanRun_two (dir : String) (m : Mode) (src : List Char) (it : Item) (s1 : St)
    (hinit : initSt src = ⟨src, 0, 0, false, [], []⟩)
    (hscan : scanOne dir m (src.length + 1) ⟨src, 0, 0, false, [], []⟩ = (it, s1))
    (hne : it.tok ≠ Token.EOF) (hrest : s1.rest = []) (hic : s1.insertComma = false)
    (hlen : 1 ≤ src.length) :
    scanRun dir m (stdFuel src) (initSt src) =
      ([(it, s1.offs), (⟨s1.offs, Token.EOF, ""⟩, s1.offs)], s1) := by
  have hf1 : stdFuel src = (2 * src.length + 1) + 1 := rfl
  have hf2 : 2 * src.length + 1 = (2 * src.length) + 1 := rfl
  have hf3 : 2 * src.length = (2 * src.length - 1) + 1 := by omega
  rw [hinit, hf1]
  show (let r := scanOne dir m (src.length + 1) ⟨src, 0, 0, false, [], []⟩
    if r.1.tok = Token.EOF then ([(r.1, r.2.offs)], r.2)
    else
      let l := scanRun dir m (2 * src.length + 1) r.2
      ((r.1, r.2.offs) :: l.1, l.2)) = _
  rw [hscan]
  simp only [if_neg hne]
  have h2 : scanRun dir m (2 * src.length + 1) s1 =
      ([(⟨s1.offs, Token.EOF, ""⟩, s1.offs)], s1) := by
    rw [hf2]
    show (let r := scanOne dir m (s1.rest.length + 1) s1
      if r.1.tok = Token.EOF then ([(r.1, r.2.offs)], r.2)
      else
        let l := scanRun dir m (2 * src.length) r.2
        ((r.1, r.2.offs) :: l.1, l.2)) = _
    rw [show s1.rest.length = 0 from by rw [hrest]; rfl,
      scanOne_eof dir m 0 s1 hrest hic]
    rfl
  rw [h2]

/-- `Scan()` at a decimal point followed by a digit dispatches to the
fraction-first number scanner. -/
theorem scanOne_dot (dir : String) (m : Mode) (fl : Nat) (s : St)
    (rs : List Char) (hrest : s.rest = '.' :: rs)
    (hnext : rs.head?.elim false Char.isDigit = true) :
    scanOne dir m (fl + 1) s =
      (let q := scanNumDot s
       (⟨s.offs, q.1, String.mk q.2.1⟩, q.2.2.setCommaM m true)) := by
  have h1 : takeWs s.insertComma ('.' :: rs) = 0 := by
    simp [takeWs, isHWs]
  simp only [scanOne, hrest, h1, advanceN]
  rw [if_neg (by decide : ¬('.' : Char) = '\n'), if_neg (by decide : ¬('.' : Char) = ';'),
    if_neg (by simp [isLetter, bomChar] : ¬(isLetter '.' = true)),
    if_neg (by decide : ¬(('.' : Char).isDigit = true))]
  simp only [hnext, true_and, and_true, if_true, if_pos trivial]

theorem c5_case_a (d : Char) (ds : List Char) (hd : d ∈ decDigits)
    (hds : ∀ c ∈ ds, c ∈ decDigits) :
    scanAll "" ⟨true, true⟩ ('0' :: d :: ds) =
      [⟨0, Token.INT, String.mk ('0' :: d :: ds)⟩,
       ⟨ds.length + 2, Token.EOF, ""⟩] ∧
    scanErrs "" ⟨true, true⟩ ('0' :: d :: ds) = [(0, illIntMsg)] := by
  have hinit : initSt ('0' :: d :: ds) = ⟨'0' :: d :: ds, 0, 0, false, [], []⟩ :=
    initSt_plain _ (by simp only [List.head?_cons, ne_eq, Option.some.injEq]; decide)
  have hs1 : scanOne "" ⟨true, true⟩ (('0' :: d :: ds).length + 1)
        ⟨'0' :: d :: ds, 0, 0, false, [], []⟩ =
      (⟨0, Token.INT, String.mk ('0' :: d :: ds)⟩,
       ⟨[], ds.length + 2, 0, false, [(0, illIntMsg)], []⟩) := by
    rw [scanOne_number "" ⟨true, true⟩ ('0' :: d :: ds).length _ '0' (d :: ds) rfl
      (by decide)]
    simp only [if_pos rfl]
    rw [scanNumZero_eval _ d ds [] (by simp) hd hds rfl (by simp)]
    rw [zeroTail_nil _ _ _ _ rfl (by simp)]
    simp [St.addErr, setCommaM_dic]
    omega
  have hrun := scanRun_two "" ⟨true, true⟩ ('0' :: d :: ds)
    ⟨0, Token.INT, String.mk ('0' :: d :: ds)⟩
    ⟨[], ds.length + 2, 0, false, [(0, illIntMsg)], []⟩ hinit hs1
    (fun h => Token.noConfusion h) rfl rfl (by simp)
  simp only [List.cons_append] at hrun
  constructor
  · simp only [scanAll, scanAllE, List.cons_append, hrun]
    simp
  · simp only [scanErrs, scanFinal, List.cons_append, hrun]

theorem c5_case_b (d : Char) (ds ds2 : List Char) (hd : d ∈ decDigits)
    (hds : ∀ c ∈ ds, c ∈ decDigits) (hds2 : ∀ c ∈ ds2, c ∈ decDigits) :
    scanAll "" ⟨true, true⟩ ('0' :: d :: ds ++ '.' :: ds2) =
      [⟨0, Token.FLOAT, String.mk ('0' :: d :: ds ++ '.' :: ds2)⟩,
       ⟨ds.length + ds2.length + 3, Token.EOF, ""⟩] ∧
    scanErrs "" ⟨true, true⟩ ('0' :: d :: ds ++ '.' :: ds2) = [] := by
  have hinit : initSt ('0' :: d :: ds ++ '.' :: ds2) =
      ⟨'0' :: d :: ds ++ '.' :: ds2, 0, 0, false, [], []⟩ :=
    initSt_plain _ (by simp only [List.cons_append, List.head?_cons, ne_eq,
      Option.some.injEq]; decide)
  have hs1 : scanOne "" ⟨true, true⟩ (('0' :: d :: ds ++ '.' :: ds2).length + 1)
        ⟨'0' :: d :: ds ++ '.' :: ds2, 0, 0, false, [], []⟩ =
      (⟨0, Token.FLOAT, String.mk ('0' :: d :: ds ++ '.' :: ds2)⟩,
       ⟨[], ds.length + ds2.length + 3, 0, false, [], []⟩) := by
    rw [scanOne_number "" ⟨true, true⟩ _ _ '0' (d :: ds ++ '.' :: ds2) (by simp)
      (by decide)]
    simp only [if_pos rfl]
    rw [scanNumZero_eval _ d ds ('.' :: ds2) (by simp) hd hds
      (by rw [takeMantissa, if_neg (by decide)])
      (by intro c hc; simp at hc; subst hc; decide)]
    rw [zeroTail_dot _ _ _ _ ds2 [] (by simp) hds2 rfl (by simp)]
    simp only [numTail_nil_mk]
    simp [setCommaM_dic]
    omega
  have hrun := scanRun_two "" ⟨true, true⟩ ('0' :: d :: ds ++ '.' :: ds2)
    ⟨0, Token.FLOAT, String.mk ('0' :: d :: ds ++ '.' :: ds2)⟩
    ⟨[], ds.length + ds2.length + 3, 0, false, [], []⟩ hinit hs1
    (fun h => Token.noConfusion h) rfl rfl (by simp)
  simp only [List.cons_append] at hrun
  constructor
  · simp only [scanAll, scanAllE, List.cons_append, hrun]
    simp
  · simp only [scanErrs, scanFinal, List.cons_append, hrun]

theorem c5_case_c (d : Char) (ds : List Char) (e : Char) (ds2 : List Char)
    (hd : d ∈ decDigits) (hds : ∀ c ∈ ds, c ∈ decDigits)
    (he : e = 'e' ∨ e = 'E') (hds2 : ∀ c ∈ ds2, c ∈ decDigits) :
    scanAll "" ⟨true, true⟩ ('0' :: d :: ds ++ e :: ds2) =
      [⟨0, Token.FLOAT, String.mk ('0' :: d :: ds ++ e :: ds2)⟩,
       ⟨ds.length + ds2.length + 3, Token.EOF, ""⟩] ∧
    scanErrs "" ⟨true, true⟩ ('0' :: d :: ds ++ e :: ds2) = [] := by
  have hinit : initSt ('0' :: d :: ds ++ e :: ds2) =
      ⟨'0' :: d :: ds ++ e :: ds2, 0, 0, false, [], []⟩ :=
    initSt_plain _ (by simp only [List.cons_append, List.head?_cons, ne_eq,
      Option.some.injEq]; decide)
  have hestop : takeMantissa 10 (e :: ds2) = 0 := by
    rw [takeMantissa, if_neg (by rcases he with rfl | rfl <;> decide)]
  have hs1 : scanOne "" ⟨true, true⟩ (('0' :: d :: ds ++ e :: ds2).length + 1)
        ⟨'0' :: d :: ds ++ e :: ds2, 0, 0, false, [], []⟩ =
      (⟨0, Token.FLOAT, String.mk ('0' :: d :: ds ++ e :: ds2)⟩,
       ⟨[], ds.length + ds2.length + 3, 0, false, [], []⟩) := by
    rw [scanOne_number "" ⟨true, true⟩ _ _ '0' (d :: ds ++ e :: ds2) (by simp)
      (by decide)]
    simp only [if_pos rfl]
    rw [scanNumZero_eval _ d ds (e :: ds2) (by simp) hd hds hestop
      (by intro c hc; simp at hc; subst hc; rcases he with rfl | rfl <;> decide)]
    rw [zeroTail_exp _ _ _ _ e ds2 rfl he hds2]
    simp [setCommaM_dic]
    omega
  have hrun := scanRun_two "" ⟨true, true⟩ ('0' :: d :: ds ++ e :: ds2)
    ⟨0, Token.FLOAT, String.mk ('0' :: d :: ds ++ e :: ds2)⟩
    ⟨[], ds.length + ds2.length + 3, 0, false, [], []⟩ hinit hs1
    (fun h => Token.noConfusion h) rfl rfl (by simp)
  simp only [List.cons_append] at hrun
  constructor
  · simp only [scanAll, scanAllE, List.cons_append, hrun]
    simp
  · simp only [scanErrs, scanFinal, List.cons_append, hrun]

/-! ## Claim C5 -/

/-- C5: for every decimal literal whose first character is the digit 0
followed immediately by further decimal digits, Scan reports
"illegal integer number" (exactly one fault, at the literal's offset) and
returns token INT with the full literal — unless the digit run continues
into a decimal point or an exponent e/E, in which case the literal scans
as a legal FLOAT with no fault. -/
theorem c5_leading_zero_rule :
    ∀ (d : Char) (ds : List Char), d ∈ decDigits → (∀ c ∈ ds, c ∈ decDigits) →
      (scanAll "" ⟨true, true⟩ ('0' :: d :: ds) =
         [⟨0, Token.INT, String.mk ('0' :: d :: ds)⟩,
          ⟨ds.length + 2, Token.EOF, ""⟩] ∧
       scanErrs "" ⟨true, true⟩ ('0' :: d :: ds) = [(0, illIntMsg)]) ∧
      (∀ ds2, (∀ c ∈ ds2, c ∈ decDigits) →
        scanAll "" ⟨true, true⟩ ('0' :: d :: ds ++ '.' :: ds2) =
          [⟨0, Token.FLOAT, String.mk ('0' :: d :: ds ++ '.' :: ds2)⟩,
           ⟨ds.length + ds2.length + 3, Token.EOF, ""⟩] ∧
        scanErrs "" ⟨true, true⟩ ('0' :: d :: ds ++ '.' :: ds2) = []) ∧
      (∀ e ds2, (e = 'e' ∨ e = 'E') → (∀ c ∈ ds2, c ∈ decDigits) →
        scanAll "" ⟨true, true⟩ ('0' :: d :: ds ++ e :: ds2) =
          [⟨0, Token.FLOAT, String.mk ('0' :: d :: ds ++ e :: ds2)⟩,
           ⟨ds.length + ds2.length + 3, Token.EOF, ""⟩] ∧
        scanErrs "" ⟨true, true⟩ ('0' :: d :: ds ++ e :: ds2) = []) := by
  intro d ds hd hds
  exact ⟨c5_case_a d ds hd hds,
    fun ds2 hds2 => c5_case_b d ds ds2 hd hds hds2,
    fun e ds2 he hds2 => c5_case_c d ds e ds2 hd hds he hds2⟩

/-- C5 witness: the fixtures "077" (fault), "078." / "078e0" /
"07801234567." (fault-free floats), obtained from the theorem. -/
theorem c5_leading_zero_rule_witness :
    (scanAll "" ⟨true, true⟩ "077".toList =
       [⟨0, Token.INT, "077"⟩, ⟨3, Token.EOF, ""⟩] ∧
     scanErrs "" ⟨true, true⟩ "077".toList = [(0, illIntMsg)]) ∧
    (scanAll "" ⟨true, true⟩ "078.".toList =
       [⟨0, Token.FLOAT, "078."⟩, ⟨4, Token.EOF, ""⟩] ∧
     scanErrs "" ⟨true, true⟩ "078.".toList = []) ∧
    (scanAll "" ⟨true, true⟩ "078e0".toList =
       [⟨0, Token.FLOAT, "078e0"⟩, ⟨5, Token.EOF, ""⟩] ∧
     scanErrs "" ⟨true, true⟩ "078e0".toList = []) ∧
    (scanAll "" ⟨true, true⟩ "07801234567.".toList =
       [⟨0, Token.FLOAT, "07801234567."⟩, ⟨12, Token.EOF, ""⟩] ∧
     scanErrs "" ⟨true, true⟩ "07801234567.".toList = []) := by
  refine ⟨?_, ?_, ?_, ?_⟩
  · exact (c5_leading_zero_rule '7' ['7'] (by decide) (by decide)).1
  · exact (c5_leading_zero_rule '7' ['8'] (by decide) (by decide)).2.1 [] (by decide)
  · exact (c5_leading_zero_rule '7' ['8'] (by decide) (by decide)).2.2 'e' ['0']
      (Or.inl rfl) (by decide)
  · exact (c5_leading_zero_rule '7' ['8', '0', '1', '2', '3', '4', '5', '6', '7']
      (by decide) (by decide)).2.1 [] (by decide)

/-! ## Claim C10 -/

theorem c10_case_int (d : Char) (ds : List Char) (mc : Char) (suf : List Char)
    (hd : d ∈ decDigits) (hdz : d ≠ '0') (hds : ∀ c ∈ ds, c ∈ decDigits)
    (hmc : mc ∈ multChars) (hsuf : suf = [] ∨ suf = ['i']) :
    scanAll "" ⟨true, true⟩ (d :: ds ++ mc :: suf) =
      [⟨0, Token.INT, String.mk (d :: ds ++ mc :: suf)⟩,
       ⟨ds.length + suf.length + 2, Token.EOF, ""⟩] ∧
    scanErrs "" ⟨true, true⟩ (d :: ds ++ mc :: suf) = [] := by
  have hinit := initSt_plain (d :: ds ++ mc :: suf) (by
    simp only [List.cons_append, List.head?_cons, ne_eq, Option.some.injEq]
    exact dd_not_bom d hd)
  have hstop : takeMantissa 10 (mc :: suf) = 0 := by
    rw [takeMantissa, if_neg (mc_stop mc hmc)]
  have hs1 : scanOne "" ⟨true, true⟩ ((d :: ds ++ mc :: suf).length + 1)
        ⟨d :: ds ++ mc :: suf, 0, 0, false, [], []⟩ =
      (⟨0, Token.INT, String.mk (d :: ds ++ mc :: suf)⟩,
       ⟨[], ds.length + suf.length + 2, 0, false, [], []⟩) := by
    rw [scanOne_number "" ⟨true, true⟩ _ _ d (ds ++ mc :: suf) (by simp) hd]
    simp only [if_neg hdz]
    rw [scanNumDec_eval _ d ds (mc :: suf) (by simp) hd hds hstop
      (by intro c hc; simp at hc; subst hc; exact mc_not_bom mc hmc)]
    rw [fracTail_not_dot Token.INT _ (Or.inr ⟨mc, suf, rfl, mc_not_dot mc hmc⟩)]
    rw [numTail_mult Token.INT _ mc suf rfl hmc hsuf]
    simp [setCommaM_dic]
    omega
  have hrun := scanRun_two "" ⟨true, true⟩ (d :: ds ++ mc :: suf)
    ⟨0, Token.INT, String.mk (d :: ds ++ mc :: suf)⟩
    ⟨[], ds.length + suf.length + 2, 0, false, [], []⟩ hinit hs1
    (fun h => Token.noConfusion h) rfl rfl (by simp)
  simp only [List.cons_append] at hrun
  constructor
  · simp only [scanAll, scanAllE, List.cons_append, hrun]
    simp
  · simp only [scanErrs, scanFinal, List.cons_append, hrun]

theorem c10_case_frac (d : Char) (ds ds2 : List Char) (mc : Char) (suf : List Char)
    (hd : d ∈ decDigits) (hdz : d ≠ '0') (hds : ∀ c ∈ ds, c ∈ decDigits)
    (hds2 : ∀ c ∈ ds2, c ∈ decDigits)
    (hmc : mc ∈ multChars) (hsuf : suf = [] ∨ suf = ['i']) :
    scanAll "" ⟨true, true⟩ (d :: ds ++ '.' :: ds2 ++ mc :: suf) =
      [⟨0, Token.INT, String.mk (d :: ds ++ '.' :: ds2 ++ mc :: suf)⟩,
       ⟨ds.length + ds2.length + suf.length + 3, Token.EOF, ""⟩] ∧
    scanErrs "" ⟨true, true⟩ (d :: ds ++ '.' :: ds2 ++ mc :: suf) = [] := by
  have hinit := initSt_plain (d :: ds ++ '.' :: ds2 ++ mc :: suf) (by
    simp only [List.cons_append, List.head?_cons, ne_eq, Option.some.injEq]
    exact dd_not_bom d hd)
  have hstop2 : takeMantissa 10 (mc :: suf) = 0 := by
    rw [takeMantissa, if_neg (mc_stop mc hmc)]
  have hs1 : scanOne "" ⟨true, true⟩ ((d :: ds ++ '.' :: ds2 ++ mc :: suf).length + 1)
        ⟨d :: ds ++ '.' :: ds2 ++ mc :: suf, 0, 0, false, [], []⟩ =
      (⟨0, Token.INT, String.mk (d :: ds ++ '.' :: ds2 ++ mc :: suf)⟩,
       ⟨[], ds.length + ds2.length + suf.length + 3, 0, false, [], []⟩) := by
    rw [scanOne_number "" ⟨true, true⟩ _ _ d (ds ++ '.' :: ds2 ++ mc :: suf) (by simp) hd]
    simp only [if_neg hdz]
    rw [scanNumDec_eval _ d ds ('.' :: (ds2 ++ mc :: suf)) (by simp) hd hds
      (by rw [takeMantissa, if_neg (by decide)])
      (by intro c hc; simp at hc; subst hc; decide)]
    rw [fracTail_dot Token.INT _ ds2 (mc :: suf) rfl hds2 hstop2
      (by intro c hc; simp at hc; subst hc; exact mc_not_bom mc hmc)]
    rw [numTail_mult Token.FLOAT _ mc suf rfl hmc hsuf]
    simp [setCommaM_dic]
    omega
  have hrun := scanRun_two "" ⟨true, true⟩ (d :: ds ++ '.' :: ds2 ++ mc :: suf)
    ⟨0, Token.INT, String.mk (d :: ds ++ '.' :: ds2 ++ mc :: suf)⟩
    ⟨[], ds.length + ds2.length + suf.length + 3, 0, false, [], []⟩ hinit hs1
    (fun h => Token.noConfusion h) rfl rfl (by simp)
  simp only [List.cons_append] at hrun
  constructor
  · simp only [scanAll, scanAllE, List.cons_append, hrun]
    simp
  · simp only [scanErrs, scanFinal, List.cons_append, hrun]

theorem c10_case_dot (d2 : Char) (ds2 : List Char) (mc : Char) (suf : List Char)
    (hd2 : d2 ∈ decDigits) (hds2 : ∀ c ∈ ds2, c ∈ decDigits)
    (hmc : mc ∈ multChars) (hsuf : suf = [] ∨ suf = ['i']) :
    scanAll "" ⟨true, true⟩ ('.' :: d2 :: ds2 ++ mc :: suf) =
      [⟨0, Token.INT, String.mk ('.' :: d2 :: ds2 ++ mc :: suf)⟩,
       ⟨ds2.length + suf.length + 3, Token.EOF, ""⟩] ∧
    scanErrs "" ⟨true, true⟩ ('.' :: d2 :: ds2 ++ mc :: suf) = [] := by
  have hinit := initSt_plain ('.' :: d2 :: ds2 ++ mc :: suf) (by
    simp only [List.cons_append, List.head?_cons, ne_eq, Option.some.injEq]
    decide)
  have hstop2 : takeMantissa 10 (mc :: suf) = 0 := by
    rw [takeMantissa, if_neg (mc_stop mc hmc)]
  have hs1 : scanOne "" ⟨true, true⟩ (('.' :: d2 :: ds2 ++ mc :: suf).length + 1)
        ⟨'.' :: d2 :: ds2 ++ mc :: suf, 0, 0, false, [], []⟩ =
      (⟨0, Token.INT, String.mk ('.' :: d2 :: ds2 ++ mc :: suf)⟩,
       ⟨[], ds2.length + suf.length + 3, 0, false, [], []⟩) := by
    rw [scanOne_dot "" ⟨true, true⟩ _ _ (d2 :: ds2 ++ mc :: suf) (by simp)
      (by simp [dd_isDigit d2 hd2])]
    rw [scanNumDot_eval _ (d2 :: ds2) (mc :: suf) (by simp) (by
        intro c hc
        rcases List.mem_cons.mp hc with rfl | hc2
        · exact hd2
        · exact hds2 c hc2) hstop2
      (by intro c hc; simp at hc; subst hc; exact mc_not_bom mc hmc)]
    rw [numTail_mult Token.FLOAT _ mc suf rfl hmc hsuf]
    simp [setCommaM_dic]
    omega
  have hrun := scanRun_two "" ⟨true, true⟩ ('.' :: d2 :: ds2 ++ mc :: suf)
    ⟨0, Token.INT, String.mk ('.' :: d2 :: ds2 ++ mc :: suf)⟩
    ⟨[], ds2.length + suf.length + 3, 0, false, [], []⟩ hinit hs1
    (fun h => Token.noConfusion h) rfl rfl (by simp)
  simp only [List.cons_append] at hrun
  constructor
  · simp only [scanAll, scanAllE, List.cons_append, hrun]
    simp
  · simp only [scanErrs, scanFinal, List.cons_append, hrun]

/-- C10: a numeric literal carrying a unit-multiplier suffix (K, M, G, T,
P, E, or the same followed by i) scans as a single INT token whose literal
is the full input text, even when the mantissa contains a decimal point:
shown for the concrete fixtures ".3Mi", "3.3Mi", "1234567M", "1234567Mi"
of scanner_test.go and in general for a decimal digit run, a digit run
with a fraction, and a leading-dot fraction, each followed by a
multiplier with an optional i. -/
theorem c10_multiplier_suffix_int :
    (scanAll "" ⟨true, true⟩ ".3Mi".toList =
       [⟨0, Token.INT, ".3Mi"⟩, ⟨4, Token.EOF, ""⟩]) ∧
    (scanAll "" ⟨true, true⟩ "3.3Mi".toList =
       [⟨0, Token.INT, "3.3Mi"⟩, ⟨5, Token.EOF, ""⟩]) ∧
    (scanAll "" ⟨true, true⟩ "1234567M".toList =
       [⟨0, Token.INT, "1234567M"⟩, ⟨8, Token.EOF, ""⟩]) ∧
    (scanAll "" ⟨true, true⟩ "1234567Mi".toList =
       [⟨0, Token.INT, "1234567Mi"⟩, ⟨9, Token.EOF, ""⟩]) ∧
    (∀ (d : Char) (ds : List Char) (mc : Char) (suf : List Char),
      d ∈ decDigits → d ≠ '0' → (∀ c ∈ ds, c ∈ decDigits) →
      mc ∈ multChars → (suf = [] ∨ suf = ['i']) →
      scanAll "" ⟨true, true⟩ (d :: ds ++ mc :: suf) =
        [⟨0, Token.INT, String.mk (d :: ds ++ mc :: suf)⟩,
         ⟨ds.length + suf.length + 2, Token.EOF, ""⟩]) ∧
    (∀ (d : Char) (ds ds2 : List Char) (mc : Char) (suf : List Char),
      d ∈ decDigits → d ≠ '0' → (∀ c ∈ ds, c ∈ decDigits) →
      (∀ c ∈ ds2, c ∈ decDigits) → mc ∈ multChars → (suf = [] ∨ suf = ['i']) →
      scanAll "" ⟨true, true⟩ (d :: ds ++ '.' :: ds2 ++ mc :: suf) =
        [⟨0, Token.INT, String.mk (d :: ds ++ '.' :: ds2 ++ mc :: suf)⟩,
         ⟨ds.length + ds2.length + suf.length + 3, Token.EOF, ""⟩]) ∧
    (∀ (d2 : Char) (ds2 : List Char) (mc : Char) (suf : List Char),
      d2 ∈ decDigits → (∀ c ∈ ds2, c ∈ decDigits) →
      mc ∈ multChars → (suf = [] ∨ suf = ['i']) →
      scanAll "" ⟨true, true⟩ ('.' :: d2 :: ds2 ++ mc :: suf) =
        [⟨0, Token.INT, String.mk ('.' :: d2 :: ds2 ++ mc :: suf)⟩,
         ⟨ds2.length + suf.length + 3, Token.EOF, ""⟩]) := by
  refine ⟨rfl, rfl, rfl, rfl, ?_, ?_, ?_⟩
  · intro d ds mc suf hd hdz hds hmc hsuf
    exact (c10_case_int d ds mc suf hd hdz hds hmc hsuf).1
  · intro d ds ds2 mc suf hd hdz hds hds2 hmc hsuf
    exact (c10_case_frac d ds ds2 mc suf hd hdz hds hds2 hmc hsuf).1
  · intro d2 ds2 mc suf hd2 hds2 hmc hsuf
    exact (c10_case_dot d2 ds2 mc suf hd2 hds2 hmc hsuf).1

/-- C10 witness: the general clauses of the theorem applied at the
fixtures "1234567M", "3.3Mi" and ".3Mi". -/
theorem c10_multiplier_suffix_int_witness :
    scanAll "" ⟨true, true⟩ "1234567M".toList =
      [⟨0, Token.INT, "1234567M"⟩, ⟨8, Token.EOF, ""⟩] ∧
    scanAll "" ⟨true, true⟩ "3.3Mi".toList =
      [⟨0, Token.INT, "3.3Mi"⟩, ⟨5, Token.EOF, ""⟩] ∧
    scanAll "" ⟨true, true⟩ ".3Mi".toList =
      [⟨0, Token.INT, ".3Mi"⟩, ⟨4, Token.EOF, ""⟩] := by
  refine ⟨?_, ?_, ?_⟩
  · exact c10_multiplier_suffix_int.2.2.2.2.1 '1' ['2', '3', '4', '5', '6', '7'] 'M' []
      (by decide) (by decide) (by decide) (by decide) (Or.inl rfl)
  · exact c10_multiplier_suffix_int.2.2.2.2.2.1 '3' [] ['3'] 'M' ['i']
      (by decide) (by decide) (by decide) (by decide) (by decide) (Or.inr rfl)
  · exact c10_multiplier_suffix_int.2.2.2.2.2.2 '3' [] 'M' ['i']
      (by decide) (by decide) (by decide) (Or.inr rfl)

/-! ## Claim C6 -/

/-- C6: scanning exactly the input "0Xbeef_" returns token INT with literal
"0Xbeef_" and invokes the error sink exactly once, with message
"illegal '_' in number" at offset 6 (the trailing underscore). -/
theorem c6_trailing_underscore :
    scanAll "" ⟨true, true⟩ "0Xbeef_".toList =
      [⟨0, Token.INT, "0Xbeef_"⟩, ⟨7, Token.EOF, ""⟩] ∧
    scanErrs "" ⟨true, true⟩ "0Xbeef_".toList =
      [(6, "illegal " ++ sq ++ "_" ++ sq ++ " in number")] := by
  exact ⟨rfl, rfl⟩

/-! ## Claim C7 -/

/-- C7 counterexample: for the escape-processing literal `"\8"` the
"unknown escape sequence" fault is reported at offset 2 — the offset of the
character following the backslash — not at the backslash's offset 1 as the
claim states. -/
theorem c7_counterexample :
    scanErrs "" ⟨true, true⟩ "\"\\8\"".toList = [(2, "unknown escape sequence")] ∧
    charAt "\"\\8\"".toList 1 = some '\\' ∧ (2 : Nat) ≠ 1 := by
  refine ⟨rfl, rfl, by decide⟩

/-- C7 (amended): a backslash followed by a character outside the
recognized escape set reports "unknown escape sequence" positioned at the
offset of the character following the backslash, and the STRING token is
still returned; shown for `"\8"` (fault at 2) and `"ab\8"` (fault at 4). -/
theorem c7_unknown_escape :
    scanAll "" ⟨true, true⟩ "\"\\8\"".toList =
      [⟨0, Token.STRING, "\"\\8\""⟩, ⟨4, Token.EOF, ""⟩] ∧
    scanErrs "" ⟨true, true⟩ "\"\\8\"".toList = [(2, "unknown escape sequence")] ∧
    scanAll "" ⟨true, true⟩ "\"ab\\8\"".toList =
      [⟨0, Token.STRING, "\"ab\\8\""⟩, ⟨6, Token.EOF, ""⟩] ∧
    scanErrs "" ⟨true, true⟩ "\"ab\\8\"".toList = [(4, "unknown escape sequence")] := by
  exact ⟨rfl, rfl, rfl, rfl⟩

/-! ## Claim C8 -/

/-- C8 counterexample: scanning `"\Uffffffff"` reports the single
"escape sequence is invalid Unicode code point" fault at offset 2, which is
the offset of the escape letter U; the hex digits occupy offsets 3 through
10, so the fault is not at the offset of any (let alone the first extra)
hex digit. -/
theorem c8_counterexample :
    scanErrs "" ⟨true, true⟩ "\"\\Uffffffff\"".toList =
      [(2, "escape sequence is invalid Unicode code point")] ∧
    charAt "\"\\Uffffffff\"".toList 2 = some 'U' ∧
    charAt "\"\\Uffffffff\"".toList 3 = some 'f' ∧ (2 : Nat) ≠ 3 := by
  refine ⟨rfl, rfl, rfl, by decide⟩

/-- C8 (amended): scanning the double-quoted string body `\Uffffffff`
returns token STRING with the full literal and reports exactly one
"escape sequence is invalid Unicode code point" fault, positioned at the
offset of the escape letter U (the character following the backslash). -/
theorem c8_invalid_codepoint :
    scanAll "" ⟨true, true⟩ "\"\\Uffffffff\"".toList =
      [⟨0, Token.STRING, "\"\\Uffffffff\""⟩, ⟨12, Token.EOF, ""⟩] ∧
    scanErrs "" ⟨true, true⟩ "\"\\Uffffffff\"".toList =
      [(2, "escape sequence is invalid Unicode code point")] ∧
    charAt "\"\\Uffffffff\"".toList 2 = some 'U' := by
  exact ⟨rfl, rfl, rfl⟩

/-! ## Claim C4 -/

/-- C4 counterexample: a BOM at the very first offset of a file that is NOT
the first file ever added to a FileSet is still silently consumed: with two
files registered, scanning the second file's source `\uFEFFx` produces no
fault at all (the claim demands exactly one "illegal byte order mark"
fault there), and scanning proceeds as if the BOM were absent. -/
theorem c4_counterexample :
    (addFile (addFile [] "a" 1).1 "b" 4).1.length = 2 ∧
    (addFile (addFile [] "a" 1).1 "b" 4).2.name = "b" ∧
    scanErrs "." ⟨true, true⟩ (bomChar :: ['x']) = [] ∧
    scanAll "." ⟨true, true⟩ (bomChar :: ['x']) =
      [⟨3, Token.IDENT, "x"⟩, ⟨4, Token.EOF, ""⟩] := by
  refine ⟨by decide, rfl, rfl, rfl⟩

/-- C4 (amended): a BOM at the very first offset of ANY file's source is
silently consumed (no token, no fault), and every other BOM occurrence —
later in the same source, inside a comment, or inside a string body —
produces exactly one "illegal byte order mark" fault at the BOM's byte
offset while scanning continues past it. -/
theorem c4_bom_policy :
    scanAll "." ⟨true, true⟩ (bomChar :: ['x']) =
      [⟨3, Token.IDENT, "x"⟩, ⟨4, Token.EOF, ""⟩] ∧
    scanErrs "." ⟨true, true⟩ (bomChar :: ['x']) = [] ∧
    scanAll "." ⟨true, true⟩ [bomChar, bomChar] =
      [⟨3, Token.ILLEGAL, String.singleton bomChar⟩, ⟨6, Token.EOF, ""⟩] ∧
    scanErrs "." ⟨true, true⟩ [bomChar, bomChar] = [(3, "illegal byte order mark")] ∧
    scanAll "." ⟨true, true⟩ ('/' :: '/' :: [bomChar]) =
      [⟨0, Token.COMMENT, String.mk ['/', '/', bomChar]⟩, ⟨5, Token.EOF, ""⟩] ∧
    scanErrs "." ⟨true, true⟩ ('/' :: '/' :: [bomChar]) =
      [(2, "illegal byte order mark")] ∧
    scanAll "." ⟨true, true⟩ ('"' :: 'a' :: 'b' :: 'c' :: bomChar :: 'd' :: 'e' :: 'f' :: ['"']) =
      [⟨0, Token.STRING, String.mk ('"' :: 'a' :: 'b' :: 'c' :: bomChar :: 'd' :: 'e' :: 'f' :: ['"'])⟩,
       ⟨11, Token.EOF, ""⟩] ∧
    scanErrs "." ⟨true, true⟩ ('"' :: 'a' :: 'b' :: 'c' :: bomChar :: 'd' :: 'e' :: 'f' :: ['"']) =
      [(4, "illegal byte order mark")] := by
  exact ⟨rfl, rfl, rfl, rfl, rfl, rfl, rfl, rfl⟩

/-! ## Claim C3 -/

/-- The stitched source of the line-directive segments fixture
(scanner_test.go, `segments`), one token per segment. -/
def segSrcC3 : List Char :=
  ("  line1" ++
   "\nline2" ++
   "\nline3  //line File1.go:100" ++
   "\nline4" ++
   "\n//line File1.go:100\n  line100" ++
   "\n//line  \t :42\n  line1" ++
   "\n//line File2.go:200\n  line200" ++
   "\n//line foo\t:42\n  line42" ++
   "\n //line foo:42\n  line44" ++
   "\n//line foo 42\n  line46" ++
   "\n//line foo:42 extra text\n  line48" ++
   "\n//line ./foo:42\n  line42" ++
   "\n//line a/b/c/File1.go:100\n  line100").toList

/-- Literal and resolved (filename, line) of every token of `segSrcC3`,
scanned like TestLineComments (file "dir/TestLineComments", comments
skipped, commas suppressed). -/
def segResolved : List (String × String × Nat) :=
  (scanAll "dir" ⟨false, true⟩ segSrcC3).map fun it =>
    let p := resolve "dir/TestLineComments" segSrcC3
      (scanFinal "dir" ⟨false, true⟩ segSrcC3).infos it.pos
    (it.lit, p.filename, p.line)

/-- C3 counterexample: a `//line` comment with whitespace before the colon
is NOT silently ignored: after `//line foo\t:42` (exactly segment 8 of the
test fixture) positions resolve to the virtual file dir/foo line 42, and
likewise `//line  \t :42` (whitespace-only name, space directly before the
colon) takes effect with an empty virtual filename — the claim says any
such deviation has no effect. -/
theorem c3_counterexample :
    segResolved.getD 7 ("", "", 0) = ("line42", "dir/foo", 42) ∧
    segResolved.getD 5 ("", "", 0) = ("line1", "", 42) ∧
    ("dir/foo" : String) ≠ "dir/TestLineComments" ∧
    ("" : String) ≠ "dir/TestLineComments" := by
  refine ⟨rfl, rfl, by decide, by decide⟩

/-- C3 (amended): a comment `//line <name>:<line>` starting at the
beginning of a line installs an override: `<line>` is the all-digit text
after the LAST colon (and must be positive), `<name>` is the
whitespace-TRIMMED text between the prefix `//line ` and that colon
(whitespace adjacent to the colon is trimmed, not rejected; an empty name
is kept empty; `./` is cleaned and relative names are joined to the file's
directory).  Comments not at the start of a line, without a colon, with a
non-numeric tail, or without the exact `//line ` prefix are silently
ignored with no fault.  Verified over all thirteen fixture segments. -/
theorem c3_line_directives :
    segResolved =
      [("line1", "dir/TestLineComments", 1),
       ("line2", "dir/TestLineComments", 2),
       ("line3", "dir/TestLineComments", 3),
       ("line4", "dir/TestLineComments", 4),
       ("line100", "dir/File1.go", 100),
       ("line1", "", 42),
       ("line200", "dir/File2.go", 200),
       ("line42", "dir/foo", 42),
       ("line44", "dir/foo", 44),
       ("line46", "dir/foo", 46),
       ("line48", "dir/foo", 48),
       ("line42", "dir/foo", 42),
       ("line100", "dir/a/b/c/File1.go", 100),
       ("", "dir/a/b/c/File1.go", 100)] ∧
    scanErrs "dir" ⟨false, true⟩ segSrcC3 = [] := by
  exact ⟨rfl, rfl⟩

/-! ## Claim C9 -/

/-- The TestStdErrorHander source: nine illegal characters whose positions
three line directives remap. -/
def c9Src : List Char :=
  ("#\n" ++ "# #\n" ++ "//line File2:20\n" ++ "#\n" ++ "//line File2:1\n" ++
   "# #\n" ++ "//line File1:1\n" ++ "# # #").toList

/-- The faults the error handler collects for `c9Src` (file "File1"). -/
def c9Raw : List (Position × String) :=
  runErrors "File1" ⟨false, true⟩ c9Src

/-- C9: the scenario of TestStdErrorHander — 9 distinct raw faults, remapped
by the 3 line directives onto 2 virtual filenames ("3 virtual filenames"
counted with multiplicity over the directives) and 4 distinct
(filename, line) physical lines.  Sort() keeps all 9 and orders them by
(filename, line, column) with ties broken by message; RemoveMultiples()
then retains exactly the first fault per distinct (filename, line) — 4. -/
theorem c9_sort_remove_multiples :
    c9Raw.length = 9 ∧ c9Raw.Nodup ∧
    (scanFinal "." ⟨false, true⟩ c9Src).infos.length = 3 ∧
    ((c9Raw.map fun e => (e.1.filename, e.1.line)).dedup).length = 4 ∧
    sortE c9Raw =
      [(⟨"File1", 0, 1, 1⟩, illegalCharMsg '#'),
       (⟨"File1", 58, 1, 1⟩, illegalCharMsg '#'),
       (⟨"File1", 60, 1, 3⟩, illegalCharMsg '#'),
       (⟨"File1", 62, 1, 5⟩, illegalCharMsg '#'),
       (⟨"File1", 2, 2, 1⟩, illegalCharMsg '#'),
       (⟨"File1", 4, 2, 3⟩, illegalCharMsg '#'),
       (⟨"File2", 39, 1, 1⟩, illegalCharMsg '#'),
       (⟨"File2", 41, 1, 3⟩, illegalCharMsg '#'),
       (⟨"File2", 22, 20, 1⟩, illegalCharMsg '#')] ∧
    (sortE c9Raw).length = 9 ∧
    pairwiseOrdered (sortE c9Raw) = true ∧
    (sortE c9Raw).Perm c9Raw ∧
    removeMultiples (sortE c9Raw) =
      [(⟨"File1", 0, 1, 1⟩, illegalCharMsg '#'),
       (⟨"File1", 2, 2, 1⟩, illegalCharMsg '#'),
       (⟨"File2", 39, 1, 1⟩, illegalCharMsg '#'),
       (⟨"File2", 22, 20, 1⟩, illegalCharMsg '#')] ∧
    (removeMultiples (sortE c9Raw)).length = 4 := by
  refine ⟨rfl, by decide, rfl, by decide, rfl, rfl, rfl, by decide, rfl, rfl⟩

/-! ## Claim C2 -/

/-- C2: re-`Init`-ing a Scanner over source B — no matter what it scanned
before, even an arbitrary (not necessarily reachable) prior state — yields
a scanner identical in every field to a freshly constructed scanner
initialized over B, so the subsequent Scan results (tokens, literals,
faults, interpolation stack) coincide; in particular after any number of
Scan calls over a source A. -/
theorem c2_reinit_no_residual_state :
    ∀ (prev : Scanner) (f : File) (src : List Char) (m : Mode),
      Scanner.init prev f src m = Scanner.init Scanner.mkNew f src m ∧
      scanRun (Scanner.init prev f src m).dir (Scanner.init prev f src m).mode
          (stdFuel src) (Scanner.init prev f src m).st =
        scanRun (dirOf f.name) m (stdFuel src) (initSt src) ∧
      (∀ (k : Nat) (fA : File) (srcA : List Char) (mA : Mode),
        Scanner.init (scanSteps k (Scanner.init Scanner.mkNew fA srcA mA)) f src m =
          Scanner.init Scanner.mkNew f src m) := by
  intro prev f src m
  exact ⟨rfl, rfl, fun _ _ _ _ => rfl⟩

/-! ## Comma insertion: cursor invariant and progress infrastructure -/

/-- Progress measure of a scanner state: shrinks at every returned
non-EOF item. -/
def mu (s : St) : Nat :=
  2 * s.rest.length + (if s.insertComma = true then 1 else 0)

/-- Cursor invariant: the unread suffix together with the byte offset
describes a position inside the fixed source. -/
def Inv (src : List Char) (s : St) : Prop :=
  ∃ pre, src = pre ++ s.rest ∧ s.offs = byteLen pre

theorem byteLen_append (a b : List Char) :
    byteLen (a ++ b) = byteLen a + byteLen b := by
  induction a with
  | nil => rw [List.nil_append, byteLen_nil, Nat.zero_add]
  | cons c cs ih => rw [List.cons_append, byteLen_cons, byteLen_cons, ih]; omega

theorem byteLen_zero (cs : List Char) (h : byteLen cs = 0) : cs = [] := by
  cases cs with
  | nil => rfl
  | cons c cs => rw [byteLen_cons] at h; have := Char.utf8Size_pos c; omega

theorem charAt_pre (pre rest : List Char) :
    charAt (pre ++ rest) (byteLen pre) = rest.head? := by
  induction pre with
  | nil =>
    cases rest with
    | nil => rfl
    | cons c rs => simp [charAt, byteLen_nil]
  | cons c cs ih =>
    rw [List.cons_append, byteLen_cons]
    have h1 := Char.utf8Size_pos c
    show (if c.utf8Size + byteLen cs = 0 then some c
      else if c.utf8Size + byteLen cs < c.utf8Size then none
      else charAt (cs ++ rest) (c.utf8Size + byteLen cs - c.utf8Size)) = _
    rw [if_neg (by omega), if_neg (by omega), Nat.add_sub_cancel_left, ih]

theorem Inv_head {src : List Char} {s : St} (h : Inv src s) :
    charAt src s.offs = s.rest.head? := by
  obtain ⟨pre, h1, h2⟩ := h
  rw [h1, h2, charAt_pre]

theorem Inv_total {src : List Char} {s : St} (h : Inv src s) :
    s.offs + byteLen s.rest = byteLen src := by
  obtain ⟨pre, h1, h2⟩ := h
  rw [h1, byteLen_append, h2]

theorem advance_rest (s : St) : (advance s).rest = s.rest.tail := by
  cases h : s.rest <;> simp [advance, h]

theorem advance_flag (s : St) : (advance s).insertComma = s.insertComma := by
  cases h : s.rest <;> simp [advance, h]

theorem advance_offs (s : St) :
    (advance s).offs = s.offs + byteLen (s.rest.take 1) := by
  cases h : s.rest with
  | nil => simp [advance, h, byteLen_nil]
  | cons c rs => simp [advance, h, byteLen_cons, byteLen_nil]

theorem advanceN_rest (s : St) (k : Nat) : (advanceN s k).rest = s.rest.drop k := by
  induction k generalizing s with
  | zero => simp [advanceN]
  | succ k ih =>
    show (advanceN (advance s) k).rest = _
    rw [ih, advance_rest, ← List.drop_one, List.drop_drop, Nat.add_comm]

theorem advanceN_flag (s : St) (k : Nat) :
    (advanceN s k).insertComma = s.insertComma := by
  induction k generalizing s with
  | zero => rfl
  | succ k ih =>
    show (advanceN (advance s) k).insertComma = _
    rw [ih, advance_flag]

theorem advanceN_offs (s : St) (k : Nat) :
    (advanceN s k).offs = s.offs + byteLen (s.rest.take k) := by
  induction k generalizing s with
  | zero => simp [advanceN, byteLen_nil]
  | succ k ih =>
    show (advanceN (advance s) k).offs = _
    rw [ih, advance_offs, advance_rest, ← List.drop_one,
      show k + 1 = 1 + k from by omega, List.take_add, byteLen_append]
    omega

/-- Cursor displacement by `k` characters: how `rest`, `offs` and the comma
flag of the target state relate to the start state. -/
def ReachK (s t : St) (k : Nat) : Prop :=
  t.rest = s.rest.drop k ∧ t.offs = s.offs + byteLen (s.rest.take k) ∧
    t.insertComma = s.insertComma

/-- Cursor displacement by some number of characters. -/
def Reach (s t : St) : Prop := ∃ k, ReachK s t k

theorem reachK_advanceN (s : St) (k : Nat) : ReachK s (advanceN s k) k :=
  ⟨advanceN_rest s k, advanceN_offs s k, advanceN_flag s k⟩

theorem reachK_advance (s : St) : ReachK s (advance s) 1 := by
  have h := reachK_advanceN s 1
  simpa [advanceN] using h

theorem reachK_trans {s t u : St} {k1 k2 : Nat}
    (h1 : ReachK s t k1) (h2 : ReachK t u k2) : ReachK s u (k1 + k2) := by
  obtain ⟨a1, a2, a3⟩ := h1
  obtain ⟨b1, b2, b3⟩ := h2
  refine ⟨?_, ?_, by rw [b3, a3]⟩
  · rw [b1, a1, List.drop_drop]
  · rw [b2, a2, a1, List.take_add, byteLen_append]
    omega

theorem reachK_addErrs {s t : St} {k : Nat} (h : ReachK s t k)
    (es : List (Nat × String)) : ReachK s (t.addErrs es) k :=
  ⟨h.1, h.2.1, h.2.2⟩

theorem reachK_addErr {s t : St} {k : Nat} (h : ReachK s t k)
    (e : Nat × String) : ReachK s (t.addErr e) k :=
  ⟨h.1, h.2.1, h.2.2⟩

theorem reachK_addInfo {s t : St} {k : Nat} (h : ReachK s t k)
    (i : Nat × String × Nat) : ReachK s (t.addInfo i) k :=
  ⟨h.1, h.2.1, h.2.2⟩

theorem Inv_reach {src : List Char} {s t : St} (hI : Inv src s)
    (h : Reach s t) : Inv src t := by
  obtain ⟨pre, e1, e2⟩ := hI
  obtain ⟨k, r1, r2, r3⟩ := h
  refine ⟨pre ++ s.rest.take k, ?_, ?_⟩
  · rw [r1, List.append_assoc, List.take_append_drop, e1]
  · rw [r2, e2, byteLen_append]

theorem Inv_advanceN {src : List Char} {s : St} (hI : Inv src s) (k : Nat) :
    Inv src (advanceN s k) :=
  Inv_reach hI ⟨k, reachK_advanceN s k⟩

theorem takeWs_zero (nn : Bool) (l : List Char) :
    takeWs nn (l.drop (takeWs nn l)) = 0 := by
  induction l with
  | nil => simp [takeWs]
  | cons c rs ih =>
    by_cases h : (isHWs c || (!nn && c == '\n')) = true
    · rw [show takeWs nn (c :: rs) = takeWs nn rs + 1 from by rw [takeWs, if_pos h]]
      simpa using ih
    · rw [show takeWs nn (c :: rs) = 0 from by rw [takeWs, if_neg h]]
      rw [List.drop_zero, takeWs, if_neg h]

theorem takeWs_head_stop (nn : Bool) (c : Char) (rs : List Char)
    (h : takeWs nn (c :: rs) = 0) : (isHWs c || (!nn && c == '\n')) = false := by
  by_contra hb
  have hb2 : (isHWs c || (!nn && c == '\n')) = true := by
    revert hb
    cases (isHWs c || (!nn && c == '\n')) <;> simp
  rw [takeWs, if_pos hb2] at h
  omega

theorem takeWs_hws_run (ws tl : List Char) (hws : ∀ c ∈ ws, isHWs c = true)
    (ht : tl.head? = some '\n' ∨ tl = []) : takeWs true (ws ++ tl) = ws.length := by
  induction ws with
  | nil =>
    cases ht with
    | inl h =>
      cases tl with
      | nil => simp at h
      | cons t ts =>
        simp only [List.head?_cons, Option.some.injEq] at h
        subst h
        simp [takeWs, isHWs]
    | inr h => subst h; simp [takeWs]
  | cons c cs ih =>
    have hc := hws c (by simp)
    rw [List.cons_append, takeWs, if_pos (by rw [hc]; rfl),
      ih (fun d hd => hws d (by simp [hd])), List.length_cons]

theorem mu_advanceN_le (s : St) (k : Nat) : mu (advanceN s k) ≤ mu s := by
  unfold mu
  rw [advanceN_rest, advanceN_flag, List.length_drop]
  omega

theorem mu_lt_of {s t : St} (h : t.rest.length < s.rest.length) : mu t < mu s := by
  unfold mu
  have h1 : (if t.insertComma = true then 1 else 0) ≤ 1 := by split <;> omega
  omega

theorem reach_len_lt {s t : St} {k : Nat} (h : ReachK s t k) (hk : 1 ≤ k)
    (hne : s.rest ≠ []) : t.rest.length < s.rest.length := by
  rw [h.1, List.length_drop]
  have : 0 < s.rest.length := List.length_pos.mpr hne
  omega

theorem reach_offs_succ {s t : St} {k : Nat} (h : ReachK s t k) (hk : 1 ≤ k)
    (c : Char) (rs : List Char) (hr : s.rest = c :: rs) : s.offs + 1 ≤ t.offs := by
  rw [h.2.1, hr]
  cases k with
  | zero => omega
  | succ k =>
    rw [List.take_succ_cons, byteLen_cons]
    have := Char.utf8Size_pos c
    omega

theorem reach_offs_le {s t : St} {k : Nat} (h : ReachK s t k) : s.offs ≤ t.offs := by
  rw [h.2.1]
  omega

theorem setCommaM_nc {m : Mode} (hm : m.dontInsertCommas = false) (s : St)
    (b : Bool) : s.setCommaM m b = s.setComma b := by
  rw [St.setCommaM, hm]
  rfl

/-! ## Character-class facts -/

theorem char_toNat_inj (c d : Char) (h : c.toNat = d.toNat) : c = d := by
  have hv : c.val = d.val := by
    have h1 : c.val.toNat = d.val.toNat := h
    exact UInt32.toNat.inj h1
  exact Char.ext hv

theorem isDigit_mem (c : Char) (h : c.isDigit = true) : c ∈ decDigits := by
  simp only [Char.isDigit, Bool.and_eq_true, decide_eq_true_eq] at h
  obtain ⟨h1, h2⟩ := h
  have hv1 : 48 ≤ c.toNat := h1
  have hv2 : c.toNat ≤ 57 := h2
  interval_cases hcv : c.toNat <;>
    [ exact List.mem_cons.mpr (Or.inl (char_toNat_inj c '0' hcv));
      skip; skip; skip; skip; skip; skip; skip; skip; skip ] <;>
    simp only [decDigits, List.mem_cons] <;>
    first
    | exact Or.inr (Or.inl (char_toNat_inj c '1' hcv))
    | exact Or.inr (Or.inr (Or.inl (char_toNat_inj c '2' hcv)))
    | exact Or.inr (Or.inr (Or.inr (Or.inl (char_toNat_inj c '3' hcv))))
    | exact Or.inr (Or.inr (Or.inr (Or.inr (Or.inl (char_toNat_inj c '4' hcv)))))
    | exact Or.inr (Or.inr (Or.inr (Or.inr (Or.inr (Or.inl (char_toNat_inj c '5' hcv))))))
    | exact Or.inr (Or.inr (Or.inr (Or.inr (Or.inr (Or.inr
        (Or.inl (char_toNat_inj c '6' hcv)))))))
    | exact Or.inr (Or.inr (Or.inr (Or.inr (Or.inr (Or.inr (Or.inr
        (Or.inl (char_toNat_inj c '7' hcv))))))))
    | exact Or.inr (Or.inr (Or.inr (Or.inr (Or.inr (Or.inr (Or.inr (Or.inr
        (Or.inl (char_toNat_inj c '8' hcv)))))))))
    | exact Or.inr (Or.inr (Or.inr (Or.inr (Or.inr (Or.inr (Or.inr (Or.inr (Or.inr
        (Or.inl (char_toNat_inj c '9' hcv))))))))))

theorem hws_cases (c : Char) (h : isHWs c = true) :
    c = ' ' ∨ c = '\t' ∨ c = '\r' := by
  simpa [isHWs, or_assoc] using h

theorem bool_true_of_ne_false {b : Bool} (h : ¬ b = false) : b = true := by
  cases b <;> simp_all

theorem isLetter_not_hws (c : Char) (h : isLetter c = true) : isHWs c = false := by
  by_contra hb
  rcases hws_cases c (bool_true_of_ne_false hb) with rfl | rfl | rfl <;>
    exact absurd h (by decide)

theorem isLetter_ne_nl (c : Char) (h : isLetter c = true) : ¬ c = '\n' := by
  intro he
  subst he
  exact absurd h (by decide)

theorem isLetter_ne_semi (c : Char) (h : isLetter c = true) : ¬ c = ';' := by
  intro he
  subst he
  exact absurd h (by decide)

theorem isIdentCont_of_letter (c : Char) (h : isLetter c = true) :
    isIdentCont c = true := by
  rw [isIdentCont, h]
  rfl

theorem commentStart_shape (l : List Char) (h : isCommentStart l = true) :
    ∃ d rs2, l = '/' :: d :: rs2 ∧ (d = '/' ∨ d = '*') := by
  unfold isCommentStart at h
  split at h
  · exact ⟨'/', _, rfl, Or.inl rfl⟩
  · exact ⟨'*', _, rfl, Or.inr rfl⟩
  · simp at h

theorem term_commaAfter (t : Token) (h : TermTok t = true) : commaAfter t = true := by
  cases t <;> first | rfl | exact absurd h (by decide)

/-! ## The Scan postcondition -/

/-- Everything one `Scan()` call guarantees for the comma-insertion claim:
the cursor invariant is preserved, the measure shrinks off EOF, comma
literals and synthesized-comma positions are correct, the flag discipline
holds, and the cursor moves monotonically (strictly for real tokens). -/
def ScanPost (src : List Char) (s : St) (it : Item) (t : St) : Prop :=
  Inv src t ∧
  (¬ it.tok = Token.EOF → mu t < mu s) ∧
  (it.tok = Token.COMMA →
    it.lit = "\n" ∨ (it.lit = "," ∧ charAt src it.pos = some ',')) ∧
  (isSynth it = true →
    charAt src it.pos = some '\n' ∨ it.pos = byteLen src ∨
      charAt src it.pos = some '/') ∧
  (isSynth it = true → t.insertComma = false) ∧
  (s.insertComma = false → isSynth it = false) ∧
  (it.tok = Token.COMMA → t.insertComma = false) ∧
  (TermTok it.tok = true → t.insertComma = true) ∧
  s.offs ≤ it.pos ∧ it.pos ≤ t.offs ∧
  (¬ it.tok = Token.EOF → isSynth it = false → s.offs + 1 ≤ t.offs)

theorem scanPost_lift (src : List Char) (s : St) (k : Nat) (it : Item) (t : St)
    (h : ScanPost src (advanceN s k) it t) : ScanPost src s it t := by
  obtain ⟨p1, p2, p3, p4, p5, p6, p7, p8, p9, p10, p11⟩ := h
  have hofs := advanceN_offs s k
  have hfl := advanceN_flag s k
  have hmu := mu_advanceN_le s k
  refine ⟨p1, fun h => lt_of_lt_of_le (p2 h) hmu, p3, p4, p5, ?_, p7, p8, ?_, p10, ?_⟩
  · intro hf
    exact p6 (by rw [hfl, hf])
  · omega
  · intro h1 h2
    have := p11 h1 h2
    omega

/-- Leading-whitespace skipping commutes with `Scan()`. -/
theorem scanOne_skipWs (dir : String) (m : Mode) (fl : Nat) (s : St) :
    scanOne dir m (fl + 1) s =
      scanOne dir m (fl + 1) (advanceN s (takeWs s.insertComma s.rest)) := by
  have hflag := advanceN_flag s (takeWs s.insertComma s.rest)
  have hrest := advanceN_rest s (takeWs s.insertComma s.rest)
  conv_rhs =>
    rw [scanOne, hflag, hrest, takeWs_zero]
  rfl

/-- Dispatch form of `Scan()` at a state whose current character is not
skippable whitespace: the branch structure with the whitespace skip erased. -/
theorem scanOne_cons (dir : String) (m : Mode) (fl : Nat) (s : St) (c : Char)
    (rs : List Char) (hrest : s.rest = c :: rs)
    (hstop : (isHWs c || (!s.insertComma && c == '\n')) = false) :
    scanOne dir m (fl + 1) s =
      (if c = '\n' then
        (⟨s.offs, Token.COMMA, "\n"⟩, (advance s).setComma false)
      else if c = ';' then
        scanOne dir m fl (advance s)
      else if isLetter c then
        (let n := takeIdent (c :: rs)
         let lit := (c :: rs).take n
         if lit = ['_'] ∧ rs.head? = some '|' then
           let s2 := advanceN s 2
           match s2.rest with
           | '_' :: _ => (⟨s.offs, Token.BOTTOM, "_|_"⟩, (advance s2).setCommaM m true)
           | _ => (⟨s.offs, Token.ILLEGAL, "_|"⟩,
               (s2.addErr (s.offs, bottomMsg)).setCommaM m true)
         else
           let tok := kwLookup (String.mk lit)
           (⟨s.offs, tok, String.mk lit⟩, (advanceN s n).setCommaM m (commaAfter tok)))
      else if c.isDigit then
        (let r := if c = '0' then scanNumZero s else scanNumDec s
         (⟨s.offs, r.1, String.mk r.2.1⟩, r.2.2.setCommaM m true))
      else if c = '.' ∧ rs.head?.elim false Char.isDigit then
        (let r := scanNumDot s
         (⟨s.offs, r.1, String.mk r.2.1⟩, r.2.2.setCommaM m true))
      else if c = '"' ∨ c = '\'' then
        (if rs.take 2 = [c, c] then
           let s2 := advanceN s 3
           let r := str3Body c s.offs (s2.rest.length + 1) s2.rest s2.offs
           let body := s2.rest.take r.1
           let tok := if r.2.2 = StrEnd.interp then Token.INTERPOLATION else Token.STRING
           (⟨s.offs, tok, String.mk (stripCR ([c, c, c] ++ body))⟩,
             ((advanceN s2 r.1).addErrs r.2.1).setCommaM m true)
         else if rs.head? = some c then
           (⟨s.offs, Token.STRING, String.mk [c, c]⟩, (advanceN s 2).setCommaM m true)
         else
           let s2 := advance s
           let r := strBody c s.offs (s2.rest.length + 1) s2.rest s2.offs
           let body := s2.rest.take r.1
           let tok := if r.2.2 = StrEnd.interp then Token.INTERPOLATION else Token.STRING
           (⟨s.offs, tok, String.mk (c :: body)⟩,
             ((advanceN s2 r.1).addErrs r.2.1).setCommaM m true))
      else if c = bq then
        (let s2 := advance s
         let r := rawBody s.offs s2.rest
         let body := s2.rest.take r.1
         (⟨s.offs, Token.STRING, String.mk (stripCR (bq :: body))⟩,
           ((advanceN s2 r.1).addErrs r.2.1).setCommaM m true))
      else if isCommentStart (c :: rs) then
        (if s.insertComma && fle ((c :: rs).length + 1) (c :: rs) then
           (⟨s.offs, Token.COMMA, "\n"⟩, s.setComma false)
         else if rs.head? = some '/' then
           let k := 2 + takeUntilNl ((c :: rs).drop 2)
           let text := (c :: rs).take k
           let s2 := advanceN s k
           let s3 :=
             if s.offs = s.lineOffset then
               match interpretLineComment dir text with
               | some fl2 => s2.addInfo (s.offs + byteLen text + 1, fl2.1, fl2.2)
               | none => s2
             else s2
           if m.scanComments then
             (⟨s.offs, Token.COMMENT, String.mk (stripCR text)⟩, s3.setCommaM m false)
           else scanOne dir m fl s3
         else
           let r := blockBody s.offs ((c :: rs).length + 1) ((c :: rs).drop 2)
           let k := 2 + r.1
           let text := (c :: rs).take k
           let s2 := (advanceN s k).addErrs r.2.1
           if m.scanComments then
             (⟨s.offs, Token.COMMENT, String.mk (stripCR text)⟩, s2.setCommaM m false)
           else scanOne dir m fl s2)
      else opScan m s c rs) := by
  have h1 : takeWs s.insertComma (c :: rs) = 0 := by
    rw [takeWs, if_neg (by rw [hstop]; simp)]
  simp only [scanOne, hrest, h1, advanceN]

/-! ## Reachability of the intermediate scanner states -/

theorem reachK_refl (s : St) : ReachK s s 0 :=
  ⟨by simp, by simp [byteLen_nil], rfl⟩

theorem reach_refl (s : St) : Reach s s := ⟨0, reachK_refl s⟩

theorem reach_trans {s t u : St} (h1 : Reach s t) (h2 : Reach t u) : Reach s u := by
  obtain ⟨k1, hk1⟩ := h1
  obtain ⟨k2, hk2⟩ := h2
  exact ⟨k1 + k2, reachK_trans hk1 hk2⟩

theorem reach_advance (s : St) : Reach s (advance s) := ⟨1, reachK_advance s⟩

theorem reach_advanceN (s : St) (k : Nat) : Reach s (advanceN s k) :=
  ⟨k, reachK_advanceN s k⟩

theorem reach_addErrs {s t : St} (h : Reach s t) (es : List (Nat × String)) :
    Reach s (t.addErrs es) := by
  obtain ⟨k, hk⟩ := h
  exact ⟨k, reachK_addErrs hk es⟩

theorem reach_addErr {s t : St} (h : Reach s t) (e : Nat × String) :
    Reach s (t.addErr e) := by
  obtain ⟨k, hk⟩ := h
  exact ⟨k, reachK_addErr hk e⟩

theorem reach_addInfo {s t : St} (h : Reach s t) (i : Nat × String × Nat) :
    Reach s (t.addInfo i) := by
  obtain ⟨k, hk⟩ := h
  exact ⟨k, reachK_addInfo hk i⟩

/-- Strict reachability: at least one character was consumed. -/
def ReachS (s t : St) : Prop := ∃ k, 1 ≤ k ∧ ReachK s t k

theorem reachS_advance (s : St) : ReachS s (advance s) :=
  ⟨1, by omega, reachK_advance s⟩

theorem reachS_advanceN (s : St) (k : Nat) (hk : 1 ≤ k) : ReachS s (advanceN s k) :=
  ⟨k, hk, reachK_advanceN s k⟩

theorem reachS_trans {s t u : St} (h1 : ReachS s t) (h2 : Reach t u) : ReachS s u := by
  obtain ⟨k1, hk1, hr1⟩ := h1
  obtain ⟨k2, hr2⟩ := h2
  exact ⟨k1 + k2, by omega, reachK_trans hr1 hr2⟩

theorem reachS_len_lt {s t : St} (h : ReachS s t) (hne : s.rest ≠ []) :
    t.rest.length < s.rest.length := by
  obtain ⟨k, hk, hr⟩ := h
  exact reach_len_lt hr hk hne

theorem reachS_offs_succ {s t : St} (h : ReachS s t) (c : Char) (rs : List Char)
    (hr : s.rest = c :: rs) : s.offs + 1 ≤ t.offs := by
  obtain ⟨k, hk, hrk⟩ := h
  exact reach_offs_succ hrk hk c rs hr

theorem reach_flag {s t : St} (h : Reach s t) : t.insertComma = s.insertComma := by
  obtain ⟨k, hk⟩ := h
  exact hk.2.2

theorem reach_offs_mono {s t : St} (h : Reach s t) : s.offs ≤ t.offs := by
  obtain ⟨k, hk⟩ := h
  exact reach_offs_le hk

theorem reachS_reach {s t : St} (h : ReachS s t) : Reach s t := by
  obtain ⟨k, _, hk⟩ := h
  exact ⟨k, hk⟩

theorem reach_multTail (s : St) (p : List Char × St) (h : multTail s = some p) :
    Reach s p.2 := by
  unfold multTail at h
  split at h
  · split at h
    · split at h
      · split at h
        · simp only [Option.some.injEq] at h
          subst h
          exact reach_advanceN s 2
        · simp only [Option.some.injEq] at h
          subst h
          exact reach_advance s
      · simp only [Option.some.injEq] at h
        subst h
        exact reach_advance s
    · exact absurd h (by simp)
  · exact absurd h (by simp)

theorem reach_expTail (s : St) (p : List Char × St) (h : expTail s = some p) :
    Reach s p.2 := by
  unfold expTail at h
  split at h
  · split at h
    · dsimp only at h
      split at h
      · split at h
        · simp only [Option.some.injEq] at h
          subst h
          exact reach_addErrs
            (reach_trans (reach_advance s) (reach_trans (reach_advance _)
              (reach_advanceN _ _))) _
        · simp only [Option.some.injEq] at h
          subst h
          exact reach_addErrs (reach_trans (reach_advance s) (reach_advanceN _ _)) _
      · simp only [Option.some.injEq] at h
        subst h
        exact reach_advance s
    · exact absurd h (by simp)
  · exact absurd h (by simp)

theorem reach_numTail (tok0 : Token) (s : St) : Reach s (numTail tok0 s).2.2 := by
  unfold numTail
  split
  · next p heq => exact reach_multTail s _ heq
  · split
    · next p heq => exact reach_expTail s _ heq
    · exact reach_refl s

theorem reach_fracTail (tok0 : Token) (s : St) : Reach s (fracTail tok0 s).2.2 := by
  unfold fracTail
  split
  · split
    · dsimp only
      exact reach_trans
        (reach_addErrs (reach_trans (reach_advance s) (reach_advanceN _ _)) _)
        (reach_numTail Token.FLOAT _)
    · exact reach_numTail tok0 s
  · exact reach_numTail tok0 s

theorem reach_scanNumRadix (o b : Nat) (msg : String) (c : Char) (s : St) :
    Reach s (scanNumRadix o b msg c s).2.2 := by
  unfold scanNumRadix
  dsimp only
  split
  · exact reach_addErr
      (reach_addErrs (reach_trans (reach_advance s) (reach_advanceN _ _)) _) _
  · exact reach_addErrs (reach_trans (reach_advance s) (reach_advanceN _ _)) _

theorem reach_zeroTail (o n : Nat) (ds : List Char) (s2 : St) :
    Reach s2 (zeroTail o n ds s2).2.2 := by
  unfold zeroTail
  split
  · split
    · dsimp only
      exact reach_fracTail Token.INT s2
    · split
      · split
        · next p heq => dsimp only; exact reach_expTail s2 _ heq
        · exact reach_refl s2
      · split
        · exact reach_refl s2
        · exact reach_addErr (reach_refl s2) _
  · split
    · exact reach_refl s2
    · exact reach_addErr (reach_refl s2) _

theorem reachS_scanNumZero (s : St) : ReachS s (scanNumZero s).2.2 := by
  unfold scanNumZero
  dsimp only
  split
  · split
    · exact reachS_trans (reachS_advance s) (reach_scanNumRadix _ _ _ _ _)
    · split
      · exact reachS_trans (reachS_advance s) (reach_scanNumRadix _ _ _ _ _)
      · split
        · exact reachS_trans (reachS_advance s) (reach_scanNumRadix _ _ _ _ _)
        · exact reachS_trans (reachS_advance s)
            (reach_trans (reach_addErrs (reach_advanceN _ _) _) (reach_zeroTail _ _ _ _))
  · exact reachS_advance s

theorem reachS_scanNumDec (s : St) (hn : 1 ≤ takeMantissa 10 s.rest) :
    ReachS s (scanNumDec s).2.2 := by
  unfold scanNumDec
  dsimp only
  exact reachS_trans
    (reachS_trans (reachS_advanceN s _ hn) ⟨0, reachK_addErrs (reachK_refl _) _⟩)
    (reach_fracTail Token.INT _)

theorem reachS_scanNumDot (s : St) : ReachS s (scanNumDot s).2.2 := by
  unfold scanNumDot
  dsimp only
  exact reachS_trans (reachS_advance s)
    (reach_trans (reach_addErrs (reach_advanceN _ _) _) (reach_numTail Token.FLOAT _))

/-! ## Postcondition of each dispatch branch -/

theorem Inv_setComma {src : List Char} {t : St} (h : Inv src t) (b : Bool) :
    Inv src (t.setComma b) := by
  obtain ⟨pre, e1, e2⟩ := h
  exact ⟨pre, e1, e2⟩

theorem isSynth_false_tok {it : Item} (h : ¬ it.tok = Token.COMMA) :
    isSynth it = false := by
  have h2 : (it.tok == Token.COMMA) = false := beq_eq_false_iff_ne.mpr h
  rw [isSynth, h2, Bool.false_and]

/-- Postcondition of every branch returning a real (non-comma, non-EOF)
token: the final state is strictly beyond the start and the comma flag is
set compatibly with the terminator set. -/
theorem scanPost_real (src : List Char) (s : St) (c : Char) (rs : List Char)
    (hInv : Inv src s) (hrest : s.rest = c :: rs)
    (tok : Token) (lit : String) (base : St) (b : Bool)
    (hS : ReachS s base)
    (htok : ¬ tok = Token.COMMA) (_hEOF : ¬ tok = Token.EOF)
    (hb : TermTok tok = true → b = true) :
    ScanPost src s ⟨s.offs, tok, lit⟩ (base.setComma b) := by
  have hlen := reachS_len_lt hS (by rw [hrest]; simp)
  have hoffs1 := reachS_offs_succ hS c rs hrest
  have hmono : s.offs ≤ base.offs := reach_offs_mono (reachS_reach hS)
  have hInvB : Inv src base := Inv_reach hInv (reachS_reach hS)
  have hsy : isSynth ⟨s.offs, tok, lit⟩ = false := isSynth_false_tok htok
  refine ⟨Inv_setComma hInvB b, fun _ => mu_lt_of hlen, ?_, ?_, ?_, fun _ => hsy,
    ?_, ?_, le_refl _, hmono, fun _ _ => hoffs1⟩
  · intro h
    exact absurd h htok
  · intro h
    rw [hsy] at h
    exact absurd h (by simp)
  · intro h
    rw [hsy] at h
    exact absurd h (by simp)
  · intro h
    exact absurd h htok
  · intro h
    show b = true
    exact hb h

theorem scanPost_synth_nl (src : List Char) (s : St) (rs : List Char)
    (hInv : Inv src s) (hrest : s.rest = '\n' :: rs) (hic : s.insertComma = true) :
    ScanPost src s ⟨s.offs, Token.COMMA, "\n"⟩ ((advance s).setComma false) := by
  have hS := reachS_advance s
  have hlen := reachS_len_lt hS (by rw [hrest]; simp)
  have hmono := reach_offs_mono (reach_advance s)
  have hhead : charAt src s.offs = some '\n' := by
    rw [Inv_head hInv, hrest]
    rfl
  refine ⟨Inv_setComma (Inv_reach hInv (reach_advance s)) false, fun _ => mu_lt_of hlen,
    fun _ => Or.inl rfl, fun _ => Or.inl hhead, fun _ => rfl, ?_, fun _ => rfl,
    ?_, le_refl _, hmono, ?_⟩
  · intro hf
    rw [hf] at hic
    exact absurd hic (by simp)
  · intro ht
    simp [TermTok] at ht
  · intro _ hsy
    simp [isSynth] at hsy

theorem scanPost_synth_eof (src : List Char) (s : St)
    (hInv : Inv src s) (hrest : s.rest = []) (hic : s.insertComma = true) :
    ScanPost src s ⟨s.offs, Token.COMMA, "\n"⟩ (s.setComma false) := by
  have hpos : s.offs = byteLen src := by
    have h := Inv_total hInv
    rw [hrest, byteLen_nil] at h
    omega
  refine ⟨Inv_setComma hInv false, ?_, fun _ => Or.inl rfl,
    fun _ => Or.inr (Or.inl hpos), fun _ => rfl, ?_, fun _ => rfl,
    ?_, le_refl _, le_refl _, ?_⟩
  · intro _
    unfold mu
    rw [hic]
    show 2 * (s.rest.length) + (if false = true then 1 else 0) < _
    simp
  · intro hf
    rw [hf] at hic
    exact absurd hic (by simp)
  · intro ht
    simp [TermTok] at ht
  · intro _ hsy
    simp [isSynth] at hsy

theorem scanPost_synth_cmt (src : List Char) (s : St) (rs : List Char)
    (hInv : Inv src s) (hrest : s.rest = '/' :: rs) (hic : s.insertComma = true) :
    ScanPost src s ⟨s.offs, Token.COMMA, "\n"⟩ (s.setComma false) := by
  have hhead : charAt src s.offs = some '/' := by
    rw [Inv_head hInv, hrest]
    rfl
  refine ⟨Inv_setComma hInv false, ?_, fun _ => Or.inl rfl,
    fun _ => Or.inr (Or.inr hhead), fun _ => rfl, ?_, fun _ => rfl,
    ?_, le_refl _, le_refl _, ?_⟩
  · intro _
    unfold mu
    rw [hic]
    show 2 * (s.rest.length) + (if false = true then 1 else 0) < _
    simp
  · intro hf
    rw [hf] at hic
    exact absurd hic (by simp)
  · intro ht
    simp [TermTok] at ht
  · intro _ hsy
    simp [isSynth] at hsy

theorem scanPost_eofTok (src : List Char) (s : St) (hInv : Inv src s) :
    ScanPost src s ⟨s.offs, Token.EOF, ""⟩ s := by
  have hsy : isSynth ⟨s.offs, Token.EOF, ""⟩ = false :=
    isSynth_false_tok (by intro h; exact Token.noConfusion h)
  refine ⟨hInv, fun h => absurd rfl h, ?_, ?_, ?_, fun _ => hsy, ?_, ?_,
    le_refl _, le_refl _, fun h _ => absurd rfl h⟩
  · intro h
    exact Token.noConfusion h
  · intro h
    rw [hsy] at h
    exact absurd h (by simp)
  · intro h
    rw [hsy] at h
    exact absurd h (by simp)
  · intro h
    exact Token.noConfusion h
  · intro ht
    simp [TermTok] at ht

theorem scanPost_comma_real (src : List Char) (s : St) (rs : List Char)
    (hInv : Inv src s) (hrest : s.rest = ',' :: rs) :
    ScanPost src s ⟨s.offs, Token.COMMA, ","⟩ ((advance s).setComma false) := by
  have hS := reachS_advance s
  have hlen := reachS_len_lt hS (by rw [hrest]; simp)
  have hmono := reach_offs_mono (reach_advance s)
  have hhead : charAt src s.offs = some ',' := by
    rw [Inv_head hInv, hrest]
    rfl
  have hsy : isSynth ⟨s.offs, Token.COMMA, ","⟩ = false := by
    simp [isSynth]
  refine ⟨Inv_setComma (Inv_reach hInv (reach_advance s)) false, fun _ => mu_lt_of hlen,
    fun _ => Or.inr ⟨rfl, hhead⟩, ?_, ?_, fun _ => hsy, fun _ => rfl,
    ?_, le_refl _, hmono, ?_⟩
  · intro h
    rw [hsy] at h
    exact absurd h (by simp)
  · intro h
    rw [hsy] at h
    exact absurd h (by simp)
  · intro ht
    simp [TermTok] at ht
  · intro _ _
    show s.offs + 1 ≤ (advance s).offs
    exact reachS_offs_succ hS ',' rs hrest

/-! ## Token kinds of the number scanners, and the remaining glue -/

theorem numTail_ne (tok0 : Token) (s : St)
    (h : ¬ tok0 = Token.COMMA ∧ ¬ tok0 = Token.EOF) :
    ¬ (numTail tok0 s).1 = Token.COMMA ∧ ¬ (numTail tok0 s).1 = Token.EOF := by
  unfold numTail
  split
  · exact ⟨fun h2 => Token.noConfusion h2, fun h2 => Token.noConfusion h2⟩
  · split
    · exact ⟨fun h2 => Token.noConfusion h2, fun h2 => Token.noConfusion h2⟩
    · exact h

theorem fracTail_ne (tok0 : Token) (s : St)
    (h : ¬ tok0 = Token.COMMA ∧ ¬ tok0 = Token.EOF) :
    ¬ (fracTail tok0 s).1 = Token.COMMA ∧ ¬ (fracTail tok0 s).1 = Token.EOF := by
  unfold fracTail
  split
  · split
    · dsimp only
      exact numTail_ne Token.FLOAT _
        ⟨fun h2 => Token.noConfusion h2, fun h2 => Token.noConfusion h2⟩
    · exact numTail_ne tok0 s h
  · exact numTail_ne tok0 s h

theorem zeroTail_ne (o n : Nat) (ds : List Char) (s2 : St) :
    ¬ (zeroTail o n ds s2).1 = Token.COMMA ∧ ¬ (zeroTail o n ds s2).1 = Token.EOF := by
  unfold zeroTail
  split
  · split
    · dsimp only
      exact fracTail_ne Token.INT s2
        ⟨fun h2 => Token.noConfusion h2, fun h2 => Token.noConfusion h2⟩
    · split
      · split
        · exact ⟨fun h2 => Token.noConfusion h2, fun h2 => Token.noConfusion h2⟩
        · exact ⟨fun h2 => Token.noConfusion h2, fun h2 => Token.noConfusion h2⟩
      · split
        · exact ⟨fun h2 => Token.noConfusion h2, fun h2 => Token.noConfusion h2⟩
        · exact ⟨fun h2 => Token.noConfusion h2, fun h2 => Token.noConfusion h2⟩
  · split
    · exact ⟨fun h2 => Token.noConfusion h2, fun h2 => Token.noConfusion h2⟩
    · exact ⟨fun h2 => Token.noConfusion h2, fun h2 => Token.noConfusion h2⟩

theorem scanNumZero_ne (s : St) :
    ¬ (scanNumZero s).1 = Token.COMMA ∧ ¬ (scanNumZero s).1 = Token.EOF := by
  unfold scanNumZero
  dsimp only
  split
  · split
    · unfold scanNumRadix
      exact ⟨fun h2 => Token.noConfusion h2, fun h2 => Token.noConfusion h2⟩
    · split
      · unfold scanNumRadix
        exact ⟨fun h2 => Token.noConfusion h2, fun h2 => Token.noConfusion h2⟩
      · split
        · unfold scanNumRadix
          exact ⟨fun h2 => Token.noConfusion h2, fun h2 => Token.noConfusion h2⟩
        · exact zeroTail_ne _ _ _ _
  · exact ⟨fun h2 => Token.noConfusion h2, fun h2 => Token.noConfusion h2⟩

theorem scanNumDec_ne (s : St) :
    ¬ (scanNumDec s).1 = Token.COMMA ∧ ¬ (scanNumDec s).1 = Token.EOF := by
  unfold scanNumDec
  dsimp only
  exact fracTail_ne Token.INT _
    ⟨fun h2 => Token.noConfusion h2, fun h2 => Token.noConfusion h2⟩

theorem scanNumDot_ne (s : St) :
    ¬ (scanNumDot s).1 = Token.COMMA ∧ ¬ (scanNumDot s).1 = Token.EOF := by
  unfold scanNumDot
  dsimp only
  exact numTail_ne Token.FLOAT _
    ⟨fun h2 => Token.noConfusion h2, fun h2 => Token.noConfusion h2⟩

theorem kwLookup_ne (l : String) :
    ¬ kwLookup l = Token.COMMA ∧ ¬ kwLookup l = Token.EOF := by
  unfold kwLookup
  split_ifs <;> exact ⟨by decide, by decide⟩

/-- `Scan()` at end of input with the comma flag on synthesizes a COMMA. -/
theorem scanOne_eofComma (dir : String) (m : Mode) (fl : Nat) (s : St)
    (h : s.rest = []) (hic : s.insertComma = true) :
    scanOne dir m (fl + 1) s = (⟨s.offs, Token.COMMA, "\n"⟩, s.setComma false) := by
  simp [scanOne, h, takeWs, advanceN, hic]

theorem mu_reach_le {s t : St} (h : Reach s t) : mu t ≤ mu s := by
  obtain ⟨k, h1, h2, h3⟩ := h
  unfold mu
  rw [h1, h3, List.length_drop]
  omega

theorem reach_reachS_trans {s t u : St} (h1 : Reach s t) (h2 : ReachS t u) :
    ReachS s u := by
  obtain ⟨k1, hr1⟩ := h1
  obtain ⟨k2, hk2, hr2⟩ := h2
  exact ⟨k1 + k2, by omega, reachK_trans hr1 hr2⟩

theorem scanPost_lift_reach (src : List Char) {s t : St} (h : Reach s t)
    {it : Item} {u : St} (hp : ScanPost src t it u) : ScanPost src s it u := by
  obtain ⟨p1, p2, p3, p4, p5, p6, p7, p8, p9, p10, p11⟩ := hp
  have hmu := mu_reach_le h
  have hf := reach_flag h
  have ho := reach_offs_mono h
  refine ⟨p1, fun hh => lt_of_lt_of_le (p2 hh) hmu, p3, p4, p5, ?_, p7, p8,
    by omega, p10, ?_⟩
  · intro hx
    exact p6 (by rw [hf, hx])
  · intro h1 h2
    have := p11 h1 h2
    omega

/-- Postcondition of the operator/punctuation dispatch. -/
theorem opScan_post (m : Mode) (hm : m.dontInsertCommas = false) (src : List Char)
    (s : St) (c : Char) (rs : List Char) (hInv : Inv src s)
    (hrest : s.rest = c :: rs) :
    ScanPost src s (opScan m s c rs).1 (opScan m s c rs).2 := by
  unfold opScan
  dsimp only
  by_cases h1 : c = ','
  · rw [if_pos h1, setCommaM_nc hm]
    subst h1
    exact scanPost_comma_real src s rs hInv hrest
  rw [if_neg h1]
  by_cases h2 : c = '.'
  · rw [if_pos h2]
    by_cases h3 : rs.take 2 = ['.', '.']
    · rw [if_pos h3, setCommaM_nc hm]
      exact scanPost_real src s c rs hInv hrest Token.ELLIPSIS "" _ _
        (reachS_advanceN s 3 (by omega)) (by decide) (by decide)
        (fun h => absurd h (by decide))
    · rw [if_neg h3, setCommaM_nc hm]
      exact scanPost_real src s c rs hInv hrest Token.PERIOD "" _ _
        (reachS_advance s) (by decide) (by decide) (term_commaAfter _)
  rw [if_neg h2]
  by_cases h4 : c = '('
  · rw [if_pos h4, setCommaM_nc hm]
    exact scanPost_real src s c rs hInv hrest Token.LPAREN "" _ _
      (reachS_advance s) (by decide) (by decide) (term_commaAfter _)
  rw [if_neg h4]
  by_cases h5 : c = '['
  · rw [if_pos h5, setCommaM_nc hm]
    exact scanPost_real src s c rs hInv hrest Token.LBRACK "" _ _
      (reachS_advance s) (by decide) (by decide) (term_commaAfter _)
  rw [if_neg h5]
  by_cases h6 : c = lbr
  · rw [if_pos h6, setCommaM_nc hm]
    exact scanPost_real src s c rs hInv hrest Token.LBRACE "" _ _
      (reachS_advance s) (by decide) (by decide) (term_commaAfter _)
  rw [if_neg h6]
  by_cases h7 : c = ')'
  · rw [if_pos h7, setCommaM_nc hm]
    exact scanPost_real src s c rs hInv hrest Token.RPAREN "" _ _
      (reachS_advance s) (by decide) (by decide) (term_commaAfter _)
  rw [if_neg h7]
  by_cases h8 : c = ']'
  · rw [if_pos h8, setCommaM_nc hm]
    exact scanPost_real src s c rs hInv hrest Token.RBRACK "" _ _
      (reachS_advance s) (by decide) (by decide) (term_commaAfter _)
  rw [if_neg h8]
  by_cases h9 : c = rbr
  · rw [if_pos h9, setCommaM_nc hm]
    exact scanPost_real src s c rs hInv hrest Token.RBRACE "" _ _
      (reachS_advance s) (by decide) (by decide) (term_commaAfter _)
  rw [if_neg h9]
  by_cases h10 : c = ':'
  · rw [if_pos h10, setCommaM_nc hm]
    exact scanPost_real src s c rs hInv hrest Token.COLON "" _ _
      (reachS_advance s) (by decide) (by decide) (term_commaAfter _)
  rw [if_neg h10]
  by_cases h11 : c = '+'
  · rw [if_pos h11, setCommaM_nc hm]
    exact scanPost_real src s c rs hInv hrest Token.ADD "" _ _
      (reachS_advance s) (by decide) (by decide) (term_commaAfter _)
  rw [if_neg h11]
  by_cases h12 : c = '-'
  · rw [if_pos h12, setCommaM_nc hm]
    exact scanPost_real src s c rs hInv hrest Token.SUB "" _ _
      (reachS_advance s) (by decide) (by decide) (term_commaAfter _)
  rw [if_neg h12]
  by_cases h13 : c = '*'
  · rw [if_pos h13, setCommaM_nc hm]
    exact scanPost_real src s c rs hInv hrest Token.MUL "" _ _
      (reachS_advance s) (by decide) (by decide) (term_commaAfter _)
  rw [if_neg h13]
  by_cases h14 : c = '/'
  · rw [if_pos h14, setCommaM_nc hm]
    exact scanPost_real src s c rs hInv hrest Token.QUO "" _ _
      (reachS_advance s) (by decide) (by decide) (term_commaAfter _)
  rw [if_neg h14]
  by_cases h15 : c = '%'
  · rw [if_pos h15, setCommaM_nc hm]
    exact scanPost_real src s c rs hInv hrest Token.REM "" _ _
      (reachS_advance s) (by decide) (by decide) (term_commaAfter _)
  rw [if_neg h15]
  by_cases h16 : c = '&'
  · rw [if_pos h16]
    by_cases h17 : rs.head? = some '&'
    · rw [if_pos h17, setCommaM_nc hm]
      exact scanPost_real src s c rs hInv hrest Token.LAND "" _ _
        (reachS_advanceN s 2 (by omega)) (by decide) (by decide) (term_commaAfter _)
    · rw [if_neg h17, setCommaM_nc hm]
      exact scanPost_real src s c rs hInv hrest Token.UNIFY "" _ _
        (reachS_advance s) (by decide) (by decide) (term_commaAfter _)
  rw [if_neg h16]
  by_cases h18 : c = '|'
  · rw [if_pos h18]
    by_cases h19 : rs.head? = some '|'
    · rw [if_pos h19, setCommaM_nc hm]
      exact scanPost_real src s c rs hInv hrest Token.LOR "" _ _
        (reachS_advanceN s 2 (by omega)) (by decide) (by decide) (term_commaAfter _)
    · rw [if_neg h19, setCommaM_nc hm]
      exact scanPost_real src s c rs hInv hrest Token.DISJUNCTION "" _ _
        (reachS_advance s) (by decide) (by decide) (term_commaAfter _)
  rw [if_neg h18]
  by_cases h20 : c = '='
  · rw [if_pos h20]
    by_cases h21 : rs.head? = some '='
    · rw [if_pos h21, setCommaM_nc hm]
      exact scanPost_real src s c rs hInv hrest Token.EQL "" _ _
        (reachS_advanceN s 2 (by omega)) (by decide) (by decide) (term_commaAfter _)
    · rw [if_neg h21, setCommaM_nc hm]
      exact scanPost_real src s c rs hInv hrest Token.BIND "" _ _
        (reachS_advance s) (by decide) (by decide) (term_commaAfter _)
  rw [if_neg h20]
  by_cases h22 : c = '!'
  · rw [if_pos h22]
    by_cases h23 : rs.head? = some '='
    · rw [if_pos h23, setCommaM_nc hm]
      exact scanPost_real src s c rs hInv hrest Token.NEQ "" _ _
        (reachS_advanceN s 2 (by omega)) (by decide) (by decide) (term_commaAfter _)
    · rw [if_neg h23, setCommaM_nc hm]
      exact scanPost_real src s c rs hInv hrest Token.NOT "" _ _
        (reachS_advance s) (by decide) (by decide) (term_commaAfter _)
  rw [if_neg h22]
  by_cases h24 : c = '<'
  · rw [if_pos h24]
    by_cases h25 : rs.head? = some '='
    · rw [if_pos h25, setCommaM_nc hm]
      exact scanPost_real src s c rs hInv hrest Token.LEQ "" _ _
        (reachS_advanceN s 2 (by omega)) (by decide) (by decide) (term_commaAfter _)
    · rw [if_neg h25, setCommaM_nc hm]
      exact scanPost_real src s c rs hInv hrest Token.LSS "" _ _
        (reachS_advance s) (by decide) (by decide) (term_commaAfter _)
  rw [if_neg h24]
  by_cases h26 : c = '>'
  · rw [if_pos h26]
    by_cases h27 : rs.head? = some '='
    · rw [if_pos h27, setCommaM_nc hm]
      exact scanPost_real src s c rs hInv hrest Token.GEQ "" _ _
        (reachS_advanceN s 2 (by omega)) (by decide) (by decide) (term_commaAfter _)
    · rw [if_neg h27, setCommaM_nc hm]
      exact scanPost_real src s c rs hInv hrest Token.GTR "" _ _
        (reachS_advance s) (by decide) (by decide) (term_commaAfter _)
  rw [if_neg h26]
  by_cases h28 : c = bomChar
  · rw [if_pos h28, setCommaM_nc hm]
    exact scanPost_real src s c rs hInv hrest Token.ILLEGAL _ _ _
      (reachS_advance s) (by decide) (by decide) (fun _ => rfl)
  · rw [if_neg h28, setCommaM_nc hm]
    exact scanPost_real src s c rs hInv hrest Token.ILLEGAL _ _ _
      (reach_reachS_trans (reach_addErr (reach_refl s) _) (reachS_advance _))
      (by decide) (by decide) (fun _ => rfl)

/-- Every `Scan()` call with enough fuel satisfies the postcondition. -/
theorem scanOne_post (dir : String) (m : Mode) (src : List Char)
    (hm : m.dontInsertCommas = false) :
    ∀ fl s, Inv src s → s.rest.length + 1 ≤ fl →
      ScanPost src s (scanOne dir m fl s).1 (scanOne dir m fl s).2 := by
  intro fl
  induction fl with
  | zero =>
    intro s _ hfl
    omega
  | succ fl ih =>
    intro s hInv hfl
    rw [scanOne_skipWs dir m fl s]
    apply scanPost_lift src s (takeWs s.insertComma s.rest)
    set s1 := advanceN s (takeWs s.insertComma s.rest) with hs1
    have hInv1 : Inv src s1 := Inv_advanceN hInv _
    have hfl1 : s1.rest.length + 1 ≤ fl + 1 := by
      rw [hs1, advanceN_rest, List.length_drop]
      omega
    have hstop0 : takeWs s1.insertComma s1.rest = 0 := by
      rw [hs1, advanceN_flag, advanceN_rest]
      exact takeWs_zero _ _
    cases hrest : s1.rest with
    | nil =>
      cases hic : s1.insertComma with
      | true =>
        rw [scanOne_eofComma dir m fl s1 hrest hic]
        exact scanPost_synth_eof src s1 hInv1 hrest hic
      | false =>
        rw [scanOne_eof dir m fl s1 hrest hic]
        exact scanPost_eofTok src s1 hInv1
    | cons c rs =>
      rw [hrest] at hstop0
      have hstop := takeWs_head_stop _ c rs hstop0
      have hlen1 : s1.rest.length = rs.length + 1 := by
        rw [hrest]
        rfl
      have hfl2 : rs.length + 1 ≤ fl := by omega
      rw [scanOne_cons dir m fl s1 c rs hrest hstop]
      by_cases h1 : c = '\n'
      · rw [if_pos h1]
        have hic : s1.insertComma = true := by
          cases hf : s1.insertComma
          · rw [hf] at hstop
            subst h1
            simp [isHWs] at hstop
          · rfl
        subst h1
        exact scanPost_synth_nl src s1 rs hInv1 hrest hic
      rw [if_neg h1]
      by_cases h2 : c = ';'
      · rw [if_pos h2]
        have hfuel : (advance s1).rest.length + 1 ≤ fl := by
          rw [advance_rest, hrest, List.tail_cons]
          exact hfl2
        have hpost := ih (advance s1) (Inv_reach hInv1 (reach_advance s1)) hfuel
        exact scanPost_lift_reach src (reach_advance s1) hpost
      rw [if_neg h2]
      by_cases h3 : isLetter c = true
      · rw [if_pos h3]
        dsimp only
        by_cases h4 : (c :: rs).take (takeIdent (c :: rs)) = ['_'] ∧ rs.head? = some '|'
        · rw [if_pos h4]
          split
          · rw [setCommaM_nc hm]
            exact scanPost_real src s1 c rs hInv1 hrest Token.BOTTOM _ _ true
              (reachS_trans (reachS_advanceN s1 2 (by omega)) (reach_advance _))
              (by decide) (by decide) (fun _ => rfl)
          · rw [setCommaM_nc hm]
            exact scanPost_real src s1 c rs hInv1 hrest Token.ILLEGAL _ _ true
              (reachS_trans (reachS_advanceN s1 2 (by omega))
                (reach_addErr (reach_refl _) _))
              (by decide) (by decide) (fun _ => rfl)
        · rw [if_neg h4, setCommaM_nc hm]
          have hn : 1 ≤ takeIdent (c :: rs) := by
            rw [takeIdent, if_pos (isIdentCont_of_letter c h3)]
            omega
          exact scanPost_real src s1 c rs hInv1 hrest (kwLookup _) _ _ _
            (reachS_advanceN s1 _ hn) (kwLookup_ne _).1 (kwLookup_ne _).2
            (term_commaAfter _)
      rw [if_neg h3]
      by_cases h5 : c.isDigit = true
      · rw [if_pos h5]
        dsimp only
        rw [setCommaM_nc hm]
        by_cases h6 : c = '0'
        · rw [if_pos h6]
          exact scanPost_real src s1 c rs hInv1 hrest _ _ _ true
            (reachS_scanNumZero s1) (scanNumZero_ne s1).1 (scanNumZero_ne s1).2
            (fun _ => rfl)
        · rw [if_neg h6]
          have hn : 1 ≤ takeMantissa 10 s1.rest := by
            rw [hrest, takeMantissa,
              if_pos (Or.inl (dd_digitVal c (isDigit_mem c h5)))]
            omega
          exact scanPost_real src s1 c rs hInv1 hrest _ _ _ true
            (reachS_scanNumDec s1 hn) (scanNumDec_ne s1).1 (scanNumDec_ne s1).2
            (fun _ => rfl)
      rw [if_neg h5]
      by_cases h7 : c = '.' ∧ rs.head?.elim false Char.isDigit = true
      · rw [if_pos h7]
        dsimp only
        rw [setCommaM_nc hm]
        exact scanPost_real src s1 c rs hInv1 hrest _ _ _ true
          (reachS_scanNumDot s1) (scanNumDot_ne s1).1 (scanNumDot_ne s1).2
          (fun _ => rfl)
      rw [if_neg h7]
      by_cases h8 : c = '"' ∨ c = '\''
      · rw [if_pos h8]
        by_cases h9 : rs.take 2 = [c, c]
        · rw [if_pos h9]
          dsimp only
          rw [setCommaM_nc hm]
          exact scanPost_real src s1 c rs hInv1 hrest _ _ _ true
            (reachS_trans (reachS_advanceN s1 3 (by omega))
              (reach_addErrs (reach_advanceN _ _) _))
            (by split <;> decide) (by split <;> decide) (fun _ => rfl)
        · rw [if_neg h9]
          by_cases h10 : rs.head? = some c
          · rw [if_pos h10, setCommaM_nc hm]
            exact scanPost_real src s1 c rs hInv1 hrest Token.STRING _ _ true
              (reachS_advanceN s1 2 (by omega)) (by decide) (by decide) (fun _ => rfl)
          · rw [if_neg h10]
            dsimp only
            rw [setCommaM_nc hm]
            exact scanPost_real src s1 c rs hInv1 hrest _ _ _ true
              (reachS_trans (reachS_advance s1)
                (reach_addErrs (reach_advanceN _ _) _))
              (by split <;> decide) (by split <;> decide) (fun _ => rfl)
      rw [if_neg h8]
      by_cases h11 : c = bq
      · rw [if_pos h11]
        dsimp only
        rw [setCommaM_nc hm]
        exact scanPost_real src s1 c rs hInv1 hrest Token.STRING _ _ true
          (reachS_trans (reachS_advance s1) (reach_addErrs (reach_advanceN _ _) _))
          (by decide) (by decide) (fun _ => rfl)
      rw [if_neg h11]
      by_cases h12 : isCommentStart (c :: rs) = true
      · rw [if_pos h12]
        obtain ⟨d, rs2, hshape, hd⟩ := commentStart_shape _ h12
        injection hshape with hc hrs
        by_cases h13 : (s1.insertComma && fle ((c :: rs).length + 1) (c :: rs)) = true
        · rw [if_pos h13]
          have hic : s1.insertComma = true := by
            revert h13
            cases s1.insertComma <;> simp
          subst hc
          exact scanPost_synth_cmt src s1 rs hInv1 hrest hic
        · rw [if_neg h13]
          by_cases h14 : rs.head? = some '/'
          · rw [if_pos h14]
            dsimp only
            have hfuel :
                (advanceN s1 (2 + takeUntilNl ((c :: rs).drop 2))).rest.length + 1
                  ≤ fl := by
              rw [advanceN_rest, hrest, List.length_drop, List.length_cons]
              omega
            by_cases h15 : m.scanComments = true
            · rw [if_pos h15]
              by_cases h16 : s1.offs = s1.lineOffset
              · rw [if_pos h16]
                cases hILC : interpretLineComment dir
                    ((c :: rs).take (2 + takeUntilNl ((c :: rs).drop 2))) with
                | some fl2 =>
                  simp only [hILC]
                  rw [setCommaM_nc hm]
                  exact scanPost_real src s1 c rs hInv1 hrest Token.COMMENT _ _ false
                    (reachS_trans (reachS_advanceN s1 _ (by omega))
                      (reach_addInfo (reach_refl _) _))
                    (by decide) (by decide) (fun h => absurd h (by decide))
                | none =>
                  simp only [hILC]
                  rw [setCommaM_nc hm]
                  exact scanPost_real src s1 c rs hInv1 hrest Token.COMMENT _ _ false
                    (reachS_advanceN s1 _ (by omega))
                    (by decide) (by decide) (fun h => absurd h (by decide))
              · rw [if_neg h16]
                rw [setCommaM_nc hm]
                exact scanPost_real src s1 c rs hInv1 hrest Token.COMMENT _ _ false
                  (reachS_advanceN s1 _ (by omega))
                  (by decide) (by decide) (fun h => absurd h (by decide))
            · rw [if_neg h15]
              by_cases h16 : s1.offs = s1.lineOffset
              · rw [if_pos h16]
                cases hILC : interpretLineComment dir
                    ((c :: rs).take (2 + takeUntilNl ((c :: rs).drop 2))) with
                | some fl2 =>
                  simp only [hILC]
                  have hreach3 : Reach s1
                      ((advanceN s1 (2 + takeUntilNl ((c :: rs).drop 2))).addInfo
                        (s1.offs + byteLen ((c :: rs).take
                          (2 + takeUntilNl ((c :: rs).drop 2))) + 1, fl2.1, fl2.2)) :=
                    reach_addInfo (reach_advanceN s1 _) _
                  have hpost := ih _ (Inv_reach hInv1 hreach3) hfuel
                  exact scanPost_lift_reach src hreach3 hpost
                | none =>
                  simp only [hILC]
                  have hpost := ih _ (Inv_reach hInv1 (reach_advanceN s1 _)) hfuel
                  exact scanPost_lift_reach src (reach_advanceN s1 _) hpost
              · rw [if_neg h16]
                have hpost := ih _ (Inv_reach hInv1 (reach_advanceN s1 _)) hfuel
                exact scanPost_lift_reach src (reach_advanceN s1 _) hpost
          · rw [if_neg h14]
            dsimp only
            have hfuel :
                (advanceN s1 (2 + (blockBody s1.offs ((c :: rs).length + 1)
                  ((c :: rs).drop 2)).1)).rest.length + 1 ≤ fl := by
              rw [advanceN_rest, hrest, List.length_drop, List.length_cons]
              omega
            by_cases h15 : m.scanComments = true
            · rw [if_pos h15]
              rw [setCommaM_nc hm]
              exact scanPost_real src s1 c rs hInv1 hrest Token.COMMENT _ _ false
                (reachS_trans (reachS_advanceN s1 _ (by omega))
                  (reach_addErrs (reach_refl _) _))
                (by decide) (by decide) (fun h => absurd h (by decide))
            · rw [if_neg h15]
              have hreach3 : Reach s1
                  ((advanceN s1 (2 + (blockBody s1.offs ((c :: rs).length + 1)
                    ((c :: rs).drop 2)).1)).addErrs
                    (blockBody s1.offs ((c :: rs).length + 1)
                      ((c :: rs).drop 2)).2.1) :=
                reach_addErrs (reach_advanceN s1 _) _
              have hpost := ih _ (Inv_reach hInv1 hreach3) hfuel
              exact scanPost_lift_reach src hreach3 hpost
      rw [if_neg h12]
      exact opScan_post m hm src s1 c rs hInv1 hrest

/-! ## The comma promise: a pending flag fires at the next line end -/

theorem hws_utf8 (c : Char) (h : isHWs c = true) : c.utf8Size = 1 := by
  rcases hws_cases c h with rfl | rfl | rfl <;> rfl

/-- Decomposition of the unread suffix under a horizontal-whitespace run of
`n` bytes ending at a newline or at end of input. -/
theorem region_ws (src : List Char) : ∀ (n : Nat) (s : St), Inv src s →
    (∀ q, s.offs ≤ q → q < s.offs + n →
      ∃ ch, charAt src q = some ch ∧ isHWs ch = true) →
    (charAt src (s.offs + n) = some '\n' ∨ s.offs + n = byteLen src) →
    ∃ ws tl, s.rest = ws ++ tl ∧ (∀ ch ∈ ws, isHWs ch = true) ∧ ws.length = n ∧
      byteLen ws = n ∧
      (tl.head? = some '\n' ∨ (tl = [] ∧ s.offs + n = byteLen src)) := by
  intro n
  induction n with
  | zero =>
    intro s hInv hreg hp
    refine ⟨[], s.rest, by simp, by simp, rfl, rfl, ?_⟩
    cases hp with
    | inl h =>
      left
      rw [Nat.add_zero] at h
      rw [← Inv_head hInv]
      exact h
    | inr h =>
      right
      have ht := Inv_total hInv
      rw [Nat.add_zero] at h
      refine ⟨byteLen_zero s.rest (by omega), by omega⟩
  | succ n ihn =>
    intro s hInv hreg hp
    obtain ⟨ch, hch, hws⟩ := hreg s.offs (le_refl _) (by omega)
    have hhead : s.rest.head? = some ch := by
      rw [← Inv_head hInv]
      exact hch
    obtain ⟨rs, hrs⟩ : ∃ rs, s.rest = ch :: rs := by
      cases hr : s.rest with
      | nil => rw [hr] at hhead; simp at hhead
      | cons a b =>
        rw [hr, List.head?_cons, Option.some.injEq] at hhead
        subst hhead
        exact ⟨b, rfl⟩
    have h1 : ch.utf8Size = 1 := hws_utf8 ch hws
    have hadv_offs : (advance s).offs = s.offs + 1 := by
      rw [advance_offs, hrs]
      simp [byteLen_cons, byteLen_nil, h1]
    obtain ⟨ws, tl, e1, e2, e3, e4, e5⟩ :=
      ihn (advance s) (Inv_reach hInv (reach_advance s))
        (fun q hq1 hq2 => hreg q (by omega) (by rw [hadv_offs] at hq2; omega))
        (by rw [hadv_offs, show s.offs + 1 + n = s.offs + (n + 1) from by omega]
            exact hp)
    have e1b : rs = ws ++ tl := by
      rw [← e1, advance_rest, hrs, List.tail_cons]
    refine ⟨ch :: ws, tl, ?_, ?_, ?_, ?_, ?_⟩
    · rw [hrs, e1b, List.cons_append]
    · intro x hx
      rcases List.mem_cons.mp hx with rfl | hx2
      · exact hws
      · exact e2 x hx2
    · rw [List.length_cons, e3]
    · rw [byteLen_cons, h1, e4]
      omega
    · rcases e5 with h | ⟨ha, hb⟩
      · exact Or.inl h
      · refine Or.inr ⟨ha, ?_⟩
        rw [hadv_offs] at hb
        omega

/-- With the comma flag on, `Scan()` from a state whose cursor is separated
from a newline or end of input only by horizontal whitespace returns the
synthesized COMMA at exactly that line-end offset. -/
theorem scanOne_commaPromise (dir : String) (m : Mode) (src : List Char)
    (fl : Nat) (s : St) (hInv : Inv src s) (hic : s.insertComma = true)
    (p : Nat) (hp : charAt src p = some '\n' ∨ p = byteLen src)
    (hle : s.offs ≤ p)
    (hreg : ∀ q, s.offs ≤ q → q < p →
      ∃ ch, charAt src q = some ch ∧ isHWs ch = true) :
    (scanOne dir m (fl + 1) s).1 = ⟨p, Token.COMMA, "\n"⟩ := by
  obtain ⟨n, rfl⟩ : ∃ n, p = s.offs + n := ⟨p - s.offs, by omega⟩
  obtain ⟨ws, tl, e1, e2, e3, e4, e5⟩ := region_ws src n s hInv hreg hp
  have htW : takeWs s.insertComma s.rest = ws.length := by
    rw [hic, e1]
    refine takeWs_hws_run ws tl e2 ?_
    rcases e5 with h | ⟨h, _⟩
    · exact Or.inl h
    · exact Or.inr h
  have hs1rest : (advanceN s (takeWs s.insertComma s.rest)).rest = tl := by
    rw [advanceN_rest, htW, e1, List.drop_left]
  have hs1offs : (advanceN s (takeWs s.insertComma s.rest)).offs = s.offs + n := by
    rw [advanceN_offs, htW, e1, List.take_left, e4]
  have hs1flag : (advanceN s (takeWs s.insertComma s.rest)).insertComma = true := by
    rw [advanceN_flag, hic]
  cases htl : tl with
  | nil =>
    simp only [scanOne, hs1rest, htl, hs1flag, if_true]
    rw [hs1offs]
  | cons t ts =>
    have ht : t = '\n' := by
      rcases e5 with h | ⟨h, _⟩
      · rw [htl] at h
        simpa using h
      · rw [htl] at h
        simp at h
    subst ht
    simp only [scanOne, hs1rest, htl, hs1offs, eq_self_iff_true, if_true]

/-! ## Whole-run consequences -/

theorem scanRun_head (dir : String) (m : Mode) (f : Nat) (hf : 1 ≤ f) (s : St) :
    (scanRun dir m f s).1[0]? =
      some ((scanOne dir m (s.rest.length + 1) s).1,
        (scanOne dir m (s.rest.length + 1) s).2.offs) := by
  cases f with
  | zero => omega
  | succ f =>
    show (let r := scanOne dir m (s.rest.length + 1) s
      if r.1.tok = Token.EOF then ([(r.1, r.2.offs)], r.2)
      else
        let l := scanRun dir m f r.2
        ((r.1, r.2.offs) :: l.1, l.2)).1[0]? = _
    dsimp only
    split
    · simp
    · simp

theorem scanRun_mem (dir : String) (m : Mode) (src : List Char)
    (hm : m.dontInsertCommas = false) :
    ∀ f s, Inv src s → ∀ ie ∈ (scanRun dir m f s).1,
      (ie.1.tok = Token.COMMA →
        ie.1.lit = "\n" ∨ (ie.1.lit = "," ∧ charAt src ie.1.pos = some ',')) ∧
      (isSynth ie.1 = true →
        charAt src ie.1.pos = some '\n' ∨ ie.1.pos = byteLen src ∨
          charAt src ie.1.pos = some '/') := by
  intro f
  induction f with
  | zero =>
    intro s _ ie hie
    simp [scanRun] at hie
  | succ f ihf =>
    intro s hInv ie hie
    obtain ⟨p1, p2, p3, p4, p5, p6, p7, p8, p9, p10, p11⟩ :=
      scanOne_post dir m src hm (s.rest.length + 1) s hInv (le_refl _)
    simp only [scanRun] at hie
    by_cases hE : (scanOne dir m (s.rest.length + 1) s).1.tok = Token.EOF
    · rw [if_pos hE] at hie
      simp only [List.mem_singleton] at hie
      subst hie
      exact ⟨p3, p4⟩
    · rw [if_neg hE] at hie
      simp only [List.mem_cons] at hie
      rcases hie with rfl | hie2
      · exact ⟨p3, p4⟩
      · exact ihf _ p1 ie hie2

theorem scanRun_pos_ge (dir : String) (m : Mode) (src : List Char)
    (hm : m.dontInsertCommas = false) :
    ∀ f s, Inv src s → ∀ ie ∈ (scanRun dir m f s).1, s.offs ≤ ie.1.pos := by
  intro f
  induction f with
  | zero =>
    intro s _ ie hie
    simp [scanRun] at hie
  | succ f ihf =>
    intro s hInv ie hie
    obtain ⟨p1, p2, p3, p4, p5, p6, p7, p8, p9, p10, p11⟩ :=
      scanOne_post dir m src hm (s.rest.length + 1) s hInv (le_refl _)
    simp only [scanRun] at hie
    by_cases hE : (scanOne dir m (s.rest.length + 1) s).1.tok = Token.EOF
    · rw [if_pos hE] at hie
      simp only [List.mem_singleton] at hie
      subst hie
      exact p9
    · rw [if_neg hE] at hie
      simp only [List.mem_cons] at hie
      rcases hie with rfl | hie2
      · exact p9
      · have := ihf _ p1 ie hie2
        omega

theorem scanRun_synth_ge (dir : String) (m : Mode) (src : List Char)
    (hm : m.dontInsertCommas = false) :
    ∀ f s, Inv src s → s.insertComma = false →
      ∀ ie ∈ (scanRun dir m f s).1, isSynth ie.1 = true →
        s.offs + 1 ≤ ie.1.pos := by
  intro f
  induction f with
  | zero =>
    intro s _ _ ie hie
    simp [scanRun] at hie
  | succ f ihf =>
    intro s hInv hic ie hie hsy
    obtain ⟨p1, p2, p3, p4, p5, p6, p7, p8, p9, p10, p11⟩ :=
      scanOne_post dir m src hm (s.rest.length + 1) s hInv (le_refl _)
    simp only [scanRun] at hie
    by_cases hE : (scanOne dir m (s.rest.length + 1) s).1.tok = Token.EOF
    · rw [if_pos hE] at hie
      simp only [List.mem_singleton] at hie
      subst hie
      rw [p6 hic] at hsy
      exact absurd hsy (by simp)
    · rw [if_neg hE] at hie
      simp only [List.mem_cons] at hie
      rcases hie with rfl | hie2
      · rw [p6 hic] at hsy
        exact absurd hsy (by simp)
      · cases hb2 : (scanOne dir m (s.rest.length + 1) s).2.insertComma with
        | true =>
          have h11 := p11 hE (p6 hic)
          have hge := scanRun_pos_ge dir m src hm f _ p1 ie hie2
          omega
        | false =>
          have := ihf _ p1 hb2 ie hie2 hsy
          have h9 := p9
          have h10 := p10
          omega

theorem scanRun_pairwise (dir : String) (m : Mode) (src : List Char)
    (hm : m.dontInsertCommas = false) :
    ∀ f s, Inv src s →
      (scanRun dir m f s).1.Pairwise
        (fun a b => isSynth a.1 = true → isSynth b.1 = true →
          a.1.pos < b.1.pos) := by
  intro f
  induction f with
  | zero =>
    intro s _
    simp [scanRun]
  | succ f ihf =>
    intro s hInv
    obtain ⟨p1, p2, p3, p4, p5, p6, p7, p8, p9, p10, p11⟩ :=
      scanOne_post dir m src hm (s.rest.length + 1) s hInv (le_refl _)
    simp only [scanRun]
    by_cases hE : (scanOne dir m (s.rest.length + 1) s).1.tok = Token.EOF
    · rw [if_pos hE]
      simp
    · rw [if_neg hE]
      rw [List.pairwise_cons]
      refine ⟨?_, ihf _ p1⟩
      intro b hb hsa hsb
      have hge := scanRun_synth_ge dir m src hm f _ p1 (p5 hsa) b hb hsb
      have h10 := p10
      show (scanOne dir m (s.rest.length + 1) s).1.pos < b.1.pos
      omega

theorem scanRun_first_not_synth (dir : String) (m : Mode) (src : List Char)
    (hm : m.dontInsertCommas = false) (f : Nat) (s : St) (hInv : Inv src s)
    (hic : s.insertComma = false) (b : Item × Nat)
    (hb : (scanRun dir m f s).1[0]? = some b) : isSynth b.1 = false := by
  cases f with
  | zero => simp [scanRun] at hb
  | succ f =>
    obtain ⟨p1, p2, p3, p4, p5, p6, p7, p8, p9, p10, p11⟩ :=
      scanOne_post dir m src hm (s.rest.length + 1) s hInv (le_refl _)
    simp only [scanRun] at hb
    by_cases hE : (scanOne dir m (s.rest.length + 1) s).1.tok = Token.EOF
    · rw [if_pos hE] at hb
      simp only [List.getElem?_cons_zero, Option.some.injEq] at hb
      subst hb
      exact p6 hic
    · rw [if_neg hE] at hb
      simp only [List.getElem?_cons_zero, Option.some.injEq] at hb
      subst hb
      exact p6 hic

theorem scanRun_nsac (dir : String) (m : Mode) (src : List Char)
    (hm : m.dontInsertCommas = false) :
    ∀ f s, Inv src s →
      ∀ i a b, (scanRun dir m f s).1[i]? = some a →
        (scanRun dir m f s).1[i + 1]? = some b →
        a.1.tok = Token.COMMA → isSynth b.1 = false := by
  intro f
  induction f with
  | zero =>
    intro s _ i a b ha _ _
    simp [scanRun] at ha
  | succ f ihf =>
    intro s hInv i a b ha hb hcomma
    obtain ⟨p1, p2, p3, p4, p5, p6, p7, p8, p9, p10, p11⟩ :=
      scanOne_post dir m src hm (s.rest.length + 1) s hInv (le_refl _)
    simp only [scanRun] at ha hb
    by_cases hE : (scanOne dir m (s.rest.length + 1) s).1.tok = Token.EOF
    · rw [if_pos hE] at hb
      cases i with
      | zero => simp at hb
      | succ i => simp at hb
    · rw [if_neg hE] at ha hb
      cases i with
      | zero =>
        simp only [List.getElem?_cons_zero, Option.some.injEq] at ha
        subst ha
        simp only [List.getElem?_cons_succ] at hb
        exact scanRun_first_not_synth dir m src hm f _ p1 (p7 hcomma) b hb
      | succ i =>
        simp only [List.getElem?_cons_succ] at ha hb
        exact ihf _ p1 i a b ha hb hcomma

theorem scanRun_ends_eof (dir : String) (m : Mode) (src : List Char)
    (hm : m.dontInsertCommas = false) :
    ∀ f s, Inv src s → mu s + 1 ≤ f →
      ∃ front lastE, (scanRun dir m f s).1 = front ++ [lastE] ∧
        lastE.1.tok = Token.EOF := by
  intro f
  induction f with
  | zero =>
    intro s _ h
    omega
  | succ f ihf =>
    intro s hInv hfu
    obtain ⟨p1, p2, p3, p4, p5, p6, p7, p8, p9, p10, p11⟩ :=
      scanOne_post dir m src hm (s.rest.length + 1) s hInv (le_refl _)
    simp only [scanRun]
    by_cases hE : (scanOne dir m (s.rest.length + 1) s).1.tok = Token.EOF
    · rw [if_pos hE]
      exact ⟨[], _, rfl, hE⟩
    · rw [if_neg hE]
      obtain ⟨front, lastE, e, he⟩ := ihf _ p1 (by have := p2 hE; omega)
      exact ⟨_ :: front, lastE, by rw [e, List.cons_append], he⟩

theorem scanRun_promise (dir : String) (m : Mode) (src : List Char)
    (hm : m.dontInsertCommas = false) :
    ∀ f s, Inv src s → mu s + 1 ≤ f →
      ∀ i a, (scanRun dir m f s).1[i]? = some a → TermTok a.1.tok = true →
        ∀ p, (charAt src p = some '\n' ∨ p = byteLen src) → a.2 ≤ p →
          (∀ q, a.2 ≤ q → q < p →
            ∃ ch, charAt src q = some ch ∧ isHWs ch = true) →
          ∃ e2, (scanRun dir m f s).1[i + 1]? =
            some (⟨p, Token.COMMA, "\n"⟩, e2) := by
  intro f
  induction f with
  | zero =>
    intro s _ h
    omega
  | succ f ihf =>
    intro s hInv hfu i a ha hterm p hp hle hreg
    obtain ⟨p1, p2, p3, p4, p5, p6, p7, p8, p9, p10, p11⟩ :=
      scanOne_post dir m src hm (s.rest.length + 1) s hInv (le_refl _)
    simp only [scanRun] at ha ⊢
    by_cases hE : (scanOne dir m (s.rest.length + 1) s).1.tok = Token.EOF
    · rw [if_pos hE] at ha ⊢
      cases i with
      | zero =>
        simp only [List.getElem?_cons_zero, Option.some.injEq] at ha
        subst ha
        rw [hE] at hterm
        exact absurd hterm (by decide)
      | succ i => simp at ha
    · rw [if_neg hE] at ha ⊢
      cases i with
      | zero =>
        simp only [List.getElem?_cons_zero, Option.some.injEq] at ha
        subst ha
        have hf1 : 1 ≤ f := by
          have := p2 hE
          omega
        have hCP := scanOne_commaPromise dir m src
          ((scanOne dir m (s.rest.length + 1) s).2.rest.length)
          ((scanOne dir m (s.rest.length + 1) s).2) p1 (p8 hterm) p hp hle hreg
        have hhead := scanRun_head dir m f hf1
          ((scanOne dir m (s.rest.length + 1) s).2)
        rw [hCP] at hhead
        refine ⟨(scanOne dir m ((scanOne dir m (s.rest.length + 1) s).2.rest.length + 1)
          ((scanOne dir m (s.rest.length + 1) s).2)).2.offs, ?_⟩
        simp only [List.getElem?_cons_succ]
        exact hhead
      | succ i =>
        simp only [List.getElem?_cons_succ] at ha ⊢
        exact ihf _ p1 (by have := p2 hE; omega) i a ha hterm p hp hle hreg

theorem initSt_inv (src : List Char) : Inv src (initSt src) := by
  unfold initSt
  cases src with
  | nil => exact ⟨[], rfl, rfl⟩
  | cons c tl =>
    dsimp only
    by_cases hb : c = bomChar
    · rw [if_pos hb]
      refine ⟨[c], rfl, ?_⟩
      show (advance ⟨c :: tl, 0, 0, false, [], []⟩).offs = byteLen [c]
      rw [advance_offs]
      simp [byteLen_cons, byteLen_nil]
    · rw [if_neg hb]
      exact ⟨[], rfl, rfl⟩

theorem initSt_mu (src : List Char) : mu (initSt src) ≤ 2 * src.length := by
  unfold initSt
  cases src with
  | nil => simp [mu]
  | cons c tl =>
    dsimp only
    by_cases hb : c = bomChar
    · rw [if_pos hb]
      show 2 * tl.length + (if false = true then 1 else 0) ≤ 2 * (c :: tl).length
      simp [List.length_cons]
    · rw [if_neg hb]
      show 2 * (c :: tl).length + (if false = true then 1 else 0) ≤ 2 * (c :: tl).length
      simp

/-- C1: on every scan (with comma insertion enabled), the token stream ends
in EOF; no synthesized comma immediately follows any COMMA; every COMMA
carries literal `"\n"` or is a source comma with literal `","` at a `,`
byte; synthesized commas sit only at a newline byte, at end of input, or at
the `/` opening a line-ending comment; synthesized-comma positions are
strictly increasing (never two in a row, never a duplicate at one event);
and whenever a returned token is in the terminator set and only horizontal
whitespace separates its end from the next newline or end of input, the very
next returned item is exactly one synthesized COMMA `"\n"` positioned at
that newline/EOF offset. -/
theorem c1_comma_insertion (dir : String) (m : Mode) (src : List Char)
    (hm : m.dontInsertCommas = false) :
    (∃ front lastE, scanAllE dir m src = front ++ [lastE] ∧
      lastE.1.tok = Token.EOF) ∧
    (∀ i a b, (scanAllE dir m src)[i]? = some a →
      (scanAllE dir m src)[i + 1]? = some b →
      a.1.tok = Token.COMMA → isSynth b.1 = false) ∧
    (∀ ie ∈ scanAllE dir m src, ie.1.tok = Token.COMMA →
      ie.1.lit = "\n" ∨ (ie.1.lit = "," ∧ charAt src ie.1.pos = some ',')) ∧
    (∀ ie ∈ scanAllE dir m src, isSynth ie.1 = true →
      charAt src ie.1.pos = some '\n' ∨ ie.1.pos = byteLen src ∨
        charAt src ie.1.pos = some '/') ∧
    (scanAllE dir m src).Pairwise
      (fun a b => isSynth a.1 = true → isSynth b.1 = true →
        a.1.pos < b.1.pos) ∧
    (∀ i a, (scanAllE dir m src)[i]? = some a → TermTok a.1.tok = true →
      ∀ p, (charAt src p = some '\n' ∨ p = byteLen src) → a.2 ≤ p →
        (∀ q, a.2 ≤ q → q < p →
          ∃ ch, charAt src q = some ch ∧ isHWs ch = true) →
        ∃ e2, (scanAllE dir m src)[i + 1]? =
          some (⟨p, Token.COMMA, "\n"⟩, e2)) := by
  have hInv := initSt_inv src
  have hmu := initSt_mu src
  have hfu : mu (initSt src) + 1 ≤ stdFuel src := by
    unfold stdFuel
    omega
  unfold scanAllE
  exact ⟨scanRun_ends_eof dir m src hm _ _ hInv hfu,
    scanRun_nsac dir m src hm _ _ hInv,
    fun ie hie => (scanRun_mem dir m src hm _ _ hInv ie hie).1,
    fun ie hie => (scanRun_mem dir m src hm _ _ hInv ie hie).2,
    scanRun_pairwise dir m src hm _ _ hInv,
    scanRun_promise dir m src hm _ _ hInv hfu⟩

theorem c1_comma_insertion_witness :
    ∃ e2, (scanAllE "" ⟨true, false⟩ ['a', ' ', '\n'])[0 + 1]? =
      some (⟨2, Token.COMMA, "\n"⟩, e2) := by
  have h := (c1_comma_insertion "" ⟨true, false⟩ ['a', ' ', '\n'] rfl).2.2.2.2.2
  refine h 0 (⟨0, Token.IDENT, "a"⟩, 1) ?_ ?_ 2 ?_ ?_ ?_
  · decide
  · decide
  · exact Or.inl (by decide)
  · decide
  · intro q h1 h2
    have hq : q = 1 := by omega
    subst hq
    exact ⟨' ', by decide, by decide⟩

end CueScan
